import Mathlib

set_option linter.unusedSectionVars false

/-!
Shallow embedding of the LinkProp / LinkProp-Multi link-prediction engine
of `run_link_prop.py` (sparse-matrix primitives built on torch_sparse
`SparseTensor`, the `LinkPropMulti` predictor, the holdout sampler and the
MAP@k evaluator).

Modelling conventions:
* a `SparseTensor` is a COO triplet list over a fixed `(rows, cols)` shape;
  `coalesce("add")` / `coalesce("max")` merge duplicate coordinates by the
  named reduction, exactly as torch_sparse does;
* float values are modelled by exact rationals `ℚ`;
* the four degree exponents `alpha, beta, gamma, delta` are modelled as
  integers so that `deg ** (-alpha)` is exact; torch clamps the `inf`
  produced by `0.0 ** (-p)` (for `p > 0`) to `0.0`, which coincides with
  the rational convention `(0 : ℚ)⁻¹ = 0`, and `0.0 ** 0.0 = 1.0` matches
  `(0 : ℚ) ^ (0 : ℤ) = 1`;
* `torch.rand` is modelled by an explicit stream `ℕ → ℚ` of sample values,
  universally quantified in the theorems;
* fallible torch operations (`topk` with too large `k`, python `range` with
  zero step, the bounds assert of `sparse_assign`) return `Except`.
-/

namespace LinkProp

/-- A COO entry list keyed by an arbitrary coordinate type. -/
abbrev KList (κ : Type) := List (κ × ℚ)

section KeyedDefs

variable {κ : Type} [DecidableEq κ]

/-- The coordinates of an entry list, with duplicates. -/
def keysL (l : KList κ) : List κ := l.map Prod.fst

/-- No coordinate occurs twice (the invariant established by coalescing). -/
def keysNodup (l : KList κ) : Prop := (keysL l).Nodup

instance (l : KList κ) : Decidable (keysNodup l) := by
  unfold keysNodup; infer_instance

/-- All values stored at one coordinate, in list order. -/
def valuesAt (l : KList κ) (k : κ) : List ℚ :=
  (l.filter (fun e => decide (e.1 = k))).map Prod.snd

/-- Dense read-out: torch materialises a cell as the sum of the triplets
stored at that coordinate (a single triplet once coalesced). -/
def denseL (l : KList κ) (k : κ) : ℚ := (valuesAt l k).sum

/-- Reduction used by `coalesce("max")`: maximum of a duplicate group. -/
def maxRed : List ℚ → ℚ
  | [] => 0
  | h :: t => t.foldl max h

/-- `coalesce` under a reduction: one entry per distinct coordinate. -/
def coalesceBy (red : List ℚ → ℚ) (l : KList κ) : KList κ :=
  ((keysL l).dedup).map (fun k => (k, red (valuesAt l k)))

/-- `coalesce("add")`. -/
def coalesceAdd (l : KList κ) : KList κ := coalesceBy List.sum l

/-- `coalesce("max")`. -/
def coalesceMax (l : KList κ) : KList κ := coalesceBy maxRed l

end KeyedDefs

/-- A torch_sparse `SparseTensor`: COO triplets over a fixed `(rows, cols)`
shape, duplicates permitted until coalesced. -/
structure Sp where
  rows : ℕ
  cols : ℕ
  entries : KList (ℕ × ℕ)
deriving DecidableEq

/-- Dense cell read-out (`to_dense()`); duplicates sum, which coincides with
torch behaviour on the coalesced matrices this code base manipulates. -/
def toDense (s : Sp) (i j : ℕ) : ℚ := denseL s.entries (i, j)

/-- `M.sum(dim=1)[i]`: sum of the stored values in row `i`. -/
def rowDeg (s : Sp) (i : ℕ) : ℚ :=
  ((s.entries.filter (fun e => decide (e.1.1 = i))).map Prod.snd).sum

/-- `M.sum(dim=0)[j]`: sum of the stored values in column `j`. -/
def colDeg (s : Sp) (j : ℕ) : ℚ :=
  ((s.entries.filter (fun e => decide (e.1.2 = j))).map Prod.snd).sum

/-- All stored coordinates lie inside the declared shape. -/
def keysInBounds (s : Sp) : Prop :=
  ∀ p ∈ keysL s.entries, p.1 < s.rows ∧ p.2 < s.cols

instance (s : Sp) : Decidable (keysInBounds s) := by
  unfold keysInBounds; infer_instance

/-- `sparse_nonzero(m)`: the stored triplets with exactly-zero values dropped. -/
def sparse_nonzero (s : Sp) : KList (ℕ × ℕ) :=
  s.entries.filter (fun e => decide (e.2 ≠ 0))

/-- `m.t()`. -/
def transposeSp (s : Sp) : Sp :=
  ⟨s.cols, s.rows, s.entries.map (fun e => ((e.1.2, e.1.1), e.2))⟩

/-- Python row slice `m[start:stop]`, clamped to the row count as in python. -/
def sliceRows (s : Sp) (start stop : ℕ) : Sp :=
  ⟨min stop s.rows - start, s.cols,
    (s.entries.filter (fun e => decide (start ≤ e.1.1 ∧ e.1.1 < min stop s.rows))).map
      (fun e => ((e.1.1 - start, e.1.2), e.2))⟩

/-- torch_sparse `matmul`: exact matrix product, coalesced COO output. -/
def spMatmul (A B : Sp) : Sp :=
  ⟨A.rows, B.cols,
    coalesceAdd (A.entries.flatMap (fun a =>
      B.entries.filterMap (fun b =>
        if a.1.2 = b.1.1 then some ((a.1.1, b.1.2), a.2 * b.2) else none)))⟩

/-- Mutable state of a `LinkPropMulti` instance.  The degree cache is a
single optional pair: the source guards recomputation by one
`user_degrees == None` check and always sets both vectors together. -/
structure LinkPropState where
  alpha : ℤ
  beta : ℤ
  gamma : ℤ
  delta : ℤ
  rounds : ℕ
  t : ℚ
  k : ℕ
  degrees : Option ((ℕ → ℚ) × (ℕ → ℚ))
  M_alpha_beta : Option Sp
  M_gamma_delta : Option Sp

/-- `LinkPropMulti.__init__`. -/
def initState (alpha beta gamma delta : ℤ) (rounds : ℕ) (t : ℚ) (k : ℕ) : LinkPropState :=
  ⟨alpha, beta, gamma, delta, rounds, t, k, none, none, none⟩

/-- `deg ** (-exponent)` with torch's inf clamp (see file header). -/
def negPow (d : ℚ) (e : ℤ) : ℚ := d ^ (-e)

/-- One reweighted propagation matrix: original sparsity pattern
(`sparse_nonzero(M)`), entry value `rowWeight * colWeight * value`. -/
def reweight (M : Sp) (ud idg : ℕ → ℚ) (e1 e2 : ℤ) : Sp :=
  ⟨M.rows, M.cols,
    (sparse_nonzero M).map (fun e => (e.1, negPow (ud e.1.1) e1 * negPow (idg e.1.2) e2 * e.2))⟩

/-- `LinkPropMulti.fit`: computes the degree cache on first use only, then
rebuilds the two propagation matrices from `M`. -/
def fit (st : LinkPropState) (M : Sp) : LinkPropState :=
  let degs := st.degrees.getD (fun i => rowDeg M i, fun j => colDeg M j)
  { st with
    degrees := some degs
    M_alpha_beta := some (reweight M degs.1 degs.2 st.alpha st.beta)
    M_gamma_delta := some (reweight M degs.1 degs.2 st.gamma st.delta) }

/-- An absent propagation matrix reads as an empty one (the source would
crash on an unfitted predictor; every claim below concerns fitted states,
where the matrix is present). -/
def orEmpty : Option Sp → Sp
  | some s => s
  | none => ⟨0, 0, []⟩

/-- `LinkPropMulti.get_preds_for_users`.  Faithful to the source: the
middle factor is the transpose of the module-level matrix `M` loaded when
the module is first evaluated (here the explicit argument `globalM`), not
of any matrix passed to `fit` or `predict_topk`. -/
def get_preds_for_users (globalM : Sp) (st : LinkPropState) (start stop : ℕ) : Sp :=
  spMatmul (spMatmul (sliceRows (orEmpty st.M_alpha_beta) start stop) (transposeSp globalM))
    (orEmpty st.M_gamma_delta)

/-- Modelled from the spec wording of the scoring formula: the variant that
uses the matrix `W` supplied to the fit/predict call as the middle
structural bridge instead of the ambient module-level matrix. -/
def get_preds_claimed (W : Sp) (st : LinkPropState) (start stop : ℕ) : Sp :=
  spMatmul (spMatmul (sliceRows (orEmpty st.M_alpha_beta) start stop) (transposeSp W))
    (orEmpty st.M_gamma_delta)

/-- The masked score inside `predict_topk`: raw score minus the `1e5`
sentinel at cells of `M[start:end]` that equal exactly `1`, clamped at 0. -/
def maskedScore (globalM : Sp) (st : LinkPropState) (M : Sp) (start stop i j : ℕ) : ℚ :=
  max (toDense (get_preds_for_users globalM st start stop) i j
    - (if toDense M (start + i) j = 1 then 100000 else 0)) 0

/-- Sorted insertion step of the stable descending sort below. -/
def insertByDesc (f : ℕ → ℚ) (a : ℕ) : List ℕ → List ℕ
  | [] => [a]
  | b :: t => if f a < f b then b :: insertByDesc f a t else a :: b :: t

/-- Stable sort by descending value (earlier element first on ties). -/
def sortByDesc (f : ℕ → ℚ) : List ℕ → List ℕ
  | [] => []
  | a :: t => insertByDesc f a (sortByDesc f t)

/-- `torch.topk(k, dim=1).indices` for one dense row of width `n`: indices
sorted by value descending; for equal values torch's tie order is
implementation-defined, modelled as ascending index (stable sort). -/
def topkIdx (f : ℕ → ℚ) (n k : ℕ) : List ℕ :=
  (sortByDesc f (List.range n)).take k

/-- `LinkPropMulti.predict_topk`.  torch raises when `k` exceeds the width
of the dense prediction block, which equals `M`'s column count at every
call site; the batch height is that of `M[start:end]` (the fitted
`M_alpha_beta` has the same row count wherever the source calls this). -/
def predict_topk (globalM : Sp) (st : LinkPropState) (M : Sp) (start stop k : ℕ) :
    Except String (List (List ℕ)) :=
  if M.cols < k then .error "selected index k out of range" else
  .ok ((List.range (min stop M.rows - start)).map (fun i =>
    (topkIdx (fun j => maskedScore globalM st M start stop i j) M.cols k).filter
      (fun j => decide (0 < maskedScore globalM st M start stop i j))))

/-- Per-batch `k` in `fit_multi`:
`ceil(M[start:end].to_dense().sum() * t / (end - start))`, no upper cap. -/
def kForBatch (M : Sp) (start stop : ℕ) (t : ℚ) : ℕ :=
  (Int.ceil ((((M.entries.filter (fun e =>
      decide (start ≤ e.1.1 ∧ e.1.1 < min stop M.rows))).map Prod.snd).sum)
    * t / ((stop - start : ℕ) : ℚ))).toNat

/-- Python `range(0, total, batch_size)` for a positive step. -/
def batchStarts (bs total : ℕ) : List ℕ :=
  (List.range ((total + bs - 1) / bs)).map (fun n => n * bs)

/-- Helper of `pairsFromPreds`: `n` is the running row offset of
`for i, row in enumerate(predicted_new_link_indices)`. -/
def pairsFromAux (start n : ℕ) : List (List ℕ) → List (ℕ × ℕ)
  | [] => []
  | row :: rest => row.map (fun j => (start + n, j)) ++ pairsFromAux start (n + 1) rest

/-- The `(start + i, j)` pairs harvested from one batch's top-k lists. -/
def pairsFromPreds (start : ℕ) (preds : List (List ℕ)) : List (ℕ × ℕ) :=
  pairsFromAux start 0 preds

/-- Append the predicted pairs with value `1.0` and `coalesce("max")`. -/
def mergePairs (acc : Sp) (pairs : List (ℕ × ℕ)) : Sp :=
  ⟨acc.rows, acc.cols, coalesceMax (acc.entries ++ pairs.map (fun p => (p, (1 : ℚ))))⟩

/-- One batch of an augmentation round of `fit_multi`. -/
def augBatch (globalM : Sp) (st : LinkPropState) (M : Sp) (acc : Sp) (se : ℕ × ℕ) :
    Except String Sp :=
  match predict_topk globalM st M se.1 se.2 (kForBatch M se.1 se.2 st.t) with
  | .error e => .error e
  | .ok preds => .ok (mergePairs acc (pairsFromPreds se.1 preds))

/-- One augmentation round of `fit_multi`: harvest predictions batch by
batch into a fresh working copy of `M`, recompute the degree cache from the
merged matrix, then `fit` on the original `M` again. -/
def augRound (globalM : Sp) (st : LinkPropState) (M : Sp) (bs total : ℕ) :
    Except String LinkPropState :=
  if bs = 0 then .error "range arg 3 must not be zero" else
  match ((batchStarts bs total).map (fun s => (s, min (s + bs) total))).foldlM
      (augBatch globalM st M) M with
  | .error e => .error e
  | .ok Mnew =>
      .ok (fit { st with degrees := some (fun i => rowDeg Mnew i, fun j => colDeg Mnew j) } M)

/-- `LinkPropMulti.fit_multi`: one `fit`, then `rounds - 1` augmentation
rounds against the same input matrix. -/
def fit_multi (globalM : Sp) (st : LinkPropState) (M : Sp) (bs total : ℕ) :
    Except String LinkPropState :=
  (List.range (st.rounds - 1)).foldlM (fun acc _ => augRound globalM acc M bs total) (fit st M)

/-- `sparse_re_assign_on_mask(m, mask, val, dim=0)`: for every stored entry
in a masked row, append a delta `val - value` and `coalesce("add")`. -/
def sparse_re_assign_on_mask (m : Sp) (mask : ℕ → Bool) (val : ℚ) : Sp :=
  ⟨m.rows, m.cols,
    coalesceAdd (m.entries ++ (m.entries.filter (fun e => mask e.1.1)).map
      (fun e => (e.1, val - e.2)))⟩

/-- Sentinel recoding of one triplet value against one random draw:
`2 → 0` (held out) when the draw falls below `frac`, else `2 → 1`; all
other values pass through untouched. -/
def newVal (frac r v : ℚ) : ℚ := if v = 2 then (if r < frac then 0 else 1) else v

/-- Apply the random mask position-wise along the nonzero triplet list. -/
def applyRand (rand : ℕ → ℚ) (frac : ℚ) : KList (ℕ × ℕ) → ℕ → KList (ℕ × ℕ)
  | [], _ => []
  | e :: es, n => (e.1, newVal frac (rand n) e.2) :: applyRand rand frac es (n + 1)

/-- The final value swap producing the held-out target: the source runs
`value[value==1]=2; value[value==0]=1; value[value==2]=0` in that order,
whose net effect is `1 → 0`, `0 → 1`, `2 → 0`, others unchanged. -/
def heldVal (v : ℚ) : ℚ := if v = 1 then 0 else if v = 0 then 1 else if v = 2 then 0 else v

/-- The observed-matrix construction step of `sample_user_items`: apply the
random recoding along the nonzero triplets and re-coalesce. -/
def sampleData (target : Sp) (rand : ℕ → ℚ) (frac : ℚ) (trips : KList (ℕ × ℕ)) : Sp :=
  ⟨target.rows, target.cols, coalesceAdd (applyRand rand frac trips 0)⟩

/-- The held-out-matrix construction step of `sample_user_items`: swap the
kept/held values of the observed matrix and re-coalesce. -/
def sampleHeld (target d : Sp) : Sp :=
  ⟨target.rows, target.cols, coalesceAdd (d.entries.map (fun e => (e.1, heldVal e.2)))⟩

/-- `sample_user_items(target, ratio)` with the random stream explicit. -/
def sample_user_items (target : Sp) ( ratio : ℚ) (rand : ℕ → ℚ) : Sp × Sp :=
  let mask : ℕ → Bool := fun r => decide (1 < rowDeg target r)
  let candidate := sparse_re_assign_on_mask target mask 2
  let trips := candidate.entries.filter (fun e => decide (e.2 ≠ 0))
  let frac : ℚ :=
    ((trips.filter (fun e => decide (e.2 = 2))).length : ℚ) / (trips.length : ℚ) * ratio
  let data := sampleData target rand frac trips
  (data, sampleHeld target data)

/-- Rel@K indicator for one row: 1 when position `j` of the first `k`
predictions hits the truth set (`np.intersect1d(..., return_indices=True)`
marks exactly those positions, the inputs being unique as asserted by
`assume_unique=True`). -/
def relAt (truth pred : List ℕ) (k j : ℕ) : ℚ :=
  match (pred.take k).get? j with
  | some p => if p ∈ truth then 1 else 0
  | none => 0

/-- Running intersection count (`rel_at_k.cumsum(axis=1)`). -/
def cumRel (truth pred : List ℕ) (k j : ℕ) : ℚ :=
  ((List.range (j + 1)).map (fun m => relAt truth pred k m)).sum

/-- Average precision at `k` for one row; the denominator is `k` for every
row, exactly as `precisions_at_k.mean(axis=1)` in the source. -/
def avgPrec (truth pred : List ℕ) (k : ℕ) : ℚ :=
  (((List.range k).map (fun j => cumRel truth pred k j / (j + 1) * relAt truth pred k j)).sum) / k

/-- `mean_average_precision(y_true, y_pred, k)`.  Rows beyond the zipped
length keep an all-zero relevance row, contributing 0 to the numerator
while still counting in the denominator, as in the source. -/
def mean_average_precision (y_true y_pred : List (List ℕ)) (k : ℕ) : ℚ :=
  (((y_true.zip y_pred).map (fun p => avgPrec p.1 p.2 k)).sum) / (y_true.length : ℚ)

/-- A `SparseTensor` whose coordinates may be arbitrary integers, as
produced by `sparse_assign` when handed negative indices (the source
appends the raw index to the COO arrays). -/
structure SpZ where
  rows : ℕ
  cols : ℕ
  entries : KList (ℤ × ℤ)
deriving DecidableEq

/-- Dense cell read-out over integer coordinates. -/
def toDenseZ (m : SpZ) (i j : ℤ) : ℚ := denseL m.entries (i, j)

/-- torch `narrow` normalises a negative start index python-style. -/
def wrapIdx (i : ℤ) (n : ℕ) : ℤ := if i < 0 then i + n else i

/-- `sparse_assign(m, i, j, val)`.  The source guards with
`assert i < m.size(0) and j < m.size(1)` — upper bounds only — then reads
the previous value through wrapping indexing and appends the raw `(i, j)`
with delta `val - prev`, followed by `coalesce("add")`. -/
def sparse_assign (m : SpZ) (i j : ℤ) (val : ℚ) : Except String SpZ :=
  if i < (m.rows : ℤ) ∧ j < (m.cols : ℤ) then
    .ok ⟨m.rows, m.cols,
      coalesceAdd (m.entries
        ++ [((i, j), val - toDenseZ m (wrapIdx i m.rows) (wrapIdx j m.cols))])⟩
  else .error "can only assign to existing indices"

/-- Success test for a fallible call. -/
def isOkE {ε α : Type} : Except ε α → Bool
  | .ok _ => true
  | .error _ => false


/-- `[[1]]`: one source, one destination, a single observed edge. -/
def exW1 : Sp := ⟨1, 1, [((0, 0), 1)]⟩

/-- `[[2]]`: an ambient module-level matrix differing from `exW1`. -/
def exG2 : Sp := ⟨1, 1, [((0, 0), 2)]⟩

/-- `[[1, 1000]]`: a row whose observed cell scores above the sentinel. -/
def exM12 : Sp := ⟨1, 2, [((0, 0), 1), ((0, 1), 1000)]⟩

/-- A degree-2 row holding an explicitly stored zero triplet. -/
def exT5 : Sp := ⟨1, 3, [((0, 0), 1), ((0, 1), 1), ((0, 2), 0)]⟩

/-- A clean all-ones row of degree 2. -/
def exOnes2 : Sp := ⟨1, 2, [((0, 0), 1), ((0, 1), 1)]⟩

/-- A degree-(1/2) row: its single stored value is fractional. -/
def exT10 : Sp := ⟨1, 1, [((0, 0), 1/2)]⟩

/-- A 2x2 integer-indexed matrix for the `sparse_assign` claims. -/
def exSZ : SpZ := ⟨2, 2, [((0, 0), 1)]⟩

/-- A zero-exponent predictor configuration (`k = 12` as in the source). -/
def st0 (rounds : ℕ) (t : ℚ) : LinkPropState := initState 0 0 0 0 rounds t 12

section KeyedThms

variable {κ : Type} [DecidableEq κ]

theorem valuesAt_append (a b : KList κ) (k : κ) :
    valuesAt (a ++ b) k = valuesAt a k ++ valuesAt b k := by
  simp [valuesAt, List.filter_append]

theorem valuesAt_cons (e : κ × ℚ) (t : KList κ) (k : κ) :
    valuesAt (e :: t) k = (if e.1 = k then [e.2] else []) ++ valuesAt t k := by
  by_cases h : e.1 = k <;> simp [valuesAt, List.filter_cons, h]

theorem denseL_append (a b : KList κ) (k : κ) :
    denseL (a ++ b) k = denseL a k + denseL b k := by
  simp [denseL, valuesAt_append]

theorem mem_keysL {l : KList κ} {k : κ} : k ∈ keysL l ↔ ∃ v, (k, v) ∈ l := by
  constructor
  · intro h
    rcases List.mem_map.mp h with ⟨e, he, hk⟩
    exact ⟨e.2, by simpa [← hk] using he⟩
  · rintro ⟨v, hv⟩
    exact List.mem_map.mpr ⟨(k, v), hv, rfl⟩

theorem valuesAt_eq_nil_of_not_mem {l : KList κ} {k : κ} (h : k ∉ keysL l) :
    valuesAt l k = [] := by
  unfold valuesAt
  have hf : List.filter (fun e => decide (e.1 = k)) l = [] := by
    rw [List.filter_eq_nil_iff]
    intro e he hk
    have hek : e.1 = k := by simpa using hk
    have hmem : (k, e.2) ∈ l := by
      rw [← hek]; simpa using he
    exact h (mem_keysL.mpr ⟨e.2, hmem⟩)
  rw [hf]; rfl

theorem denseL_eq_zero_of_not_mem {l : KList κ} {k : κ} (h : k ∉ keysL l) :
    denseL l k = 0 := by
  simp [denseL, valuesAt_eq_nil_of_not_mem h]

/-- Dense read-out of a list whose entries are a function of nodup keys. -/
theorem denseL_map_of_nodup (ks : List κ) (g : κ → ℚ) (hnd : ks.Nodup) (k : κ) :
    denseL (ks.map (fun x => (x, g x))) k = if k ∈ ks then g k else 0 := by
  induction ks with
  | nil => simp [denseL, valuesAt]
  | cons a t ih =>
    have hnd' : t.Nodup := hnd.of_cons
    have hnot : a ∉ t := (List.nodup_cons.mp hnd).1
    have hd : denseL ((a :: t).map fun x => (x, g x)) k
        = (if a = k then g a else 0) + denseL (t.map fun x => (x, g x)) k := by
      simp only [List.map_cons, denseL, valuesAt_cons]
      by_cases hak : a = k
      · simp [hak]
      · simp [hak]
    rw [hd, ih hnd']
    by_cases hak : a = k
    · subst hak
      simp [hnot]
    · simp [List.mem_cons, hak, Ne.symm hak]

/-- Dense read-out of a coalesced list. -/
theorem denseL_coalesceBy (red : List ℚ → ℚ) (l : KList κ) (k : κ) :
    denseL (coalesceBy red l) k
      = if k ∈ keysL l then red (valuesAt l k) else 0 := by
  unfold coalesceBy
  rw [denseL_map_of_nodup _ _ (List.nodup_dedup _) k]
  simp [List.mem_dedup]

/-- Summation-coalesce does not change any dense cell value. -/
theorem denseL_coalesceAdd (l : KList κ) (k : κ) :
    denseL (coalesceAdd l) k = denseL l k := by
  unfold coalesceAdd
  rw [denseL_coalesceBy]
  by_cases h : k ∈ keysL l
  · simp [h, denseL]
  · simp [h, denseL_eq_zero_of_not_mem h]

theorem keysL_coalesceBy (red : List ℚ → ℚ) (l : KList κ) :
    keysL (coalesceBy red l) = (keysL l).dedup := by
  unfold coalesceBy keysL
  rw [List.map_map]
  have hcomp : (Prod.fst ∘ fun k => (k, red (valuesAt l k))) = id := by
    funext k; rfl
  rw [hcomp, List.map_id]

/-- Coalescing establishes the no-duplicate-coordinates invariant. -/
theorem keysNodup_coalesceBy (red : List ℚ → ℚ) (l : KList κ) :
    keysNodup (coalesceBy red l) := by
  unfold keysNodup
  rw [keysL_coalesceBy]
  exact List.nodup_dedup _

/-- On a nodup-keyed list the duplicate group at a stored key is a singleton. -/
theorem valuesAt_of_mem_nodup {l : KList κ} {k : κ} {v : ℚ}
    (hnd : keysNodup l) (hm : (k, v) ∈ l) : valuesAt l k = [v] := by
  induction l with
  | nil => cases hm
  | cons e t ih =>
    have hnd2 : (e.1 :: keysL t).Nodup := hnd
    have hknot : e.1 ∉ keysL t := (List.nodup_cons.mp hnd2).1
    have hndt : keysNodup t := (List.nodup_cons.mp hnd2).2
    rcases List.mem_cons.mp hm with he | ht
    · have h1 : e.1 = k := (congrArg Prod.fst he).symm
      rw [valuesAt_cons, if_pos h1]
      rw [valuesAt_eq_nil_of_not_mem (h1 ▸ hknot)]
      have h2 : e.2 = v := (congrArg Prod.snd he).symm
      simp [h2]
    · have hne : e.1 ≠ k := by
        intro hek
        exact hknot (hek ▸ mem_keysL.mpr ⟨v, ht⟩)
      rw [valuesAt_cons, if_neg hne]
      simpa using ih hndt ht

/-- Dense value of a stored entry in a nodup-keyed list. -/
theorem denseL_of_mem_nodup {l : KList κ} {k : κ} {v : ℚ}
    (hnd : keysNodup l) (hm : (k, v) ∈ l) : denseL l k = v := by
  simp [denseL, valuesAt_of_mem_nodup hnd hm]

theorem map_keys_valuesAt_eq {l : KList κ} (hnd : keysNodup l) :
    (keysL l).map (fun k => (k, (valuesAt l k).sum)) = l := by
  induction l with
  | nil => rfl
  | cons e t ih =>
    have hnd2 : (e.1 :: keysL t).Nodup := hnd
    have hknot : e.1 ∉ keysL t := (List.nodup_cons.mp hnd2).1
    have hndt : keysNodup t := (List.nodup_cons.mp hnd2).2
    have hhead : valuesAt (e :: t) e.1 = [e.2] :=
      valuesAt_of_mem_nodup hnd (List.mem_cons_self _ _)
    have htail : (keysL t).map (fun k => (k, (valuesAt (e :: t) k).sum))
        = (keysL t).map (fun k => (k, (valuesAt t k).sum)) := by
      apply List.map_congr_left
      intro k hk
      have hne : e.1 ≠ k := fun h => hknot (h ▸ hk)
      rw [valuesAt_cons, if_neg hne]
      simp
    have hkeys : keysL (e :: t) = e.1 :: keysL t := rfl
    rw [hkeys, List.map_cons, hhead, htail, ih hndt]
    simp

/-- A nodup-keyed list is a fixed point of summation-coalesce. -/
theorem coalesceAdd_eq_self {l : KList κ} (hnd : keysNodup l) :
    coalesceAdd l = l := by
  unfold coalesceAdd coalesceBy
  rw [List.dedup_eq_self.mpr hnd]
  exact map_keys_valuesAt_eq hnd

theorem mem_coalesceBy_char (red : List ℚ → ℚ) (l : KList κ) (k : κ) (v : ℚ) :
    (k, v) ∈ coalesceBy red l ↔ k ∈ keysL l ∧ v = red (valuesAt l k) := by
  unfold coalesceBy
  constructor
  · intro h
    rcases List.mem_map.mp h with ⟨x, hx, hxe⟩
    have hk : x = k := congrArg Prod.fst hxe
    have hv : red (valuesAt l x) = v := congrArg Prod.snd hxe
    subst hk
    exact ⟨List.mem_dedup.mp hx, hv.symm⟩
  · rintro ⟨hk, hv⟩
    exact List.mem_map.mpr ⟨k, List.mem_dedup.mpr hk, by rw [← hv]⟩

/-- Bucketing a list sum by a bounded natural-number key. -/
theorem sum_bucket {α : Type} (l : List α) (keyf : α → ℕ) (f : α → ℚ) (K : ℕ)
    (h : ∀ e ∈ l, keyf e < K) :
    (l.map f).sum
      = ((List.range K).map
          (fun k => ((l.filter (fun e => decide (keyf e = k))).map f).sum)).sum := by
  induction l with
  | nil => simp
  | cons a t ih =>
    have ha : keyf a < K := h a (List.mem_cons_self _ _)
    have ht : ∀ e ∈ t, keyf e < K := fun e he => h e (List.mem_cons_of_mem _ he)
    simp only [List.map_cons, List.sum_cons, ih ht]
    have hsplit : ((List.range K).map
          (fun k => (((a :: t).filter (fun e => decide (keyf e = k))).map f).sum)).sum
        = ((List.range K).map
            (fun k => (if keyf a = k then f a else 0)
              + ((t.filter (fun e => decide (keyf e = k))).map f).sum)).sum := by
      congr 1
      apply List.map_congr_left
      intro k _
      by_cases hk : keyf a = k <;> simp [List.filter_cons, hk]
    rw [hsplit]
    have hadd : ∀ (g g2 : ℕ → ℚ) (ks : List ℕ),
        (ks.map (fun k => g k + g2 k)).sum = (ks.map g).sum + (ks.map g2).sum := by
      intro g g2 ks
      induction ks with
      | nil => simp
      | cons b bs ihb => simp [ihb]; ring
    rw [hadd]
    have hsingle : ((List.range K).map (fun k => if keyf a = k then f a else 0)).sum = f a := by
      have hgen : ∀ n, keyf a < n →
          ((List.range n).map (fun k => if keyf a = k then f a else 0)).sum = f a := by
        intro n
        induction n with
        | zero => intro h0; exact absurd h0 (Nat.not_lt_zero _)
        | succ m ihm =>
          intro hlt
          rw [List.range_succ]
          by_cases hm : keyf a = m
          · have hz : ((List.range m).map (fun k => if keyf a = k then f a else 0)).sum = 0 := by
              apply List.sum_eq_zero
              intro x hx
              rcases List.mem_map.mp hx with ⟨k, hk, hke⟩
              have hne : keyf a ≠ k := by
                intro hkk
                rw [← hkk] at hk
                rw [hm] at hk
                exact absurd (List.mem_range.mp hk) (lt_irrefl m)
              simp [hne] at hke
              exact hke.symm
            rw [List.map_append, List.sum_append, hz]
            simp [hm]
          · have hlt' : keyf a < m := lt_of_le_of_ne (Nat.lt_succ_iff.mp hlt) hm
            simp [ihm hlt', hm]
      exact hgen K ha
    rw [hsingle]


end KeyedThms

theorem denseL_cons {κ : Type} [DecidableEq κ] (e : κ × ℚ) (t : KList κ) (k : κ) :
    denseL (e :: t) k = (if e.1 = k then e.2 else 0) + denseL t k := by
  by_cases h : e.1 = k <;> simp [denseL, valuesAt_cons, h]

theorem sum_if_filter {α : Type} (l : List α) (p : α → Prop) [DecidablePred p] (f : α → ℚ) :
    (l.map (fun a => if p a then f a else 0)).sum
      = ((l.filter (fun a => decide (p a))).map f).sum := by
  induction l with
  | nil => simp
  | cons a t ih =>
    by_cases h : p a <;> simp [List.filter_cons, h, ih]

theorem denseL_sparse_nonzero (s : Sp) (k : ℕ × ℕ) :
    denseL (sparse_nonzero s) k = denseL s.entries k := by
  unfold sparse_nonzero
  induction s.entries with
  | nil => rfl
  | cons e t ih =>
    by_cases h : e.2 = 0
    · rw [List.filter_cons_of_neg (by simp [h]), denseL_cons, ih]
      by_cases hk : e.1 = k <;> simp [hk, h]
    · rw [List.filter_cons_of_pos (by simp [h]), denseL_cons, denseL_cons, ih]

theorem toDense_transpose (s : Sp) (i j : ℕ) :
    toDense (transposeSp s) i j = toDense s j i := by
  unfold toDense transposeSp
  induction s.entries with
  | nil => rfl
  | cons e t ih =>
    simp only [List.map_cons, denseL_cons, ih]
    congr 1
    by_cases h : e.1 = (j, i)
    · have h1 : e.1.2 = i := by rw [h]
      have h2 : e.1.1 = j := by rw [h]
      simp [h, h1, h2]
    · have hne : (e.1.2, e.1.1) ≠ (i, j) := by
        intro hc
        apply h
        have h1 : e.1.2 = i := congrArg Prod.fst hc
        have h2 : e.1.1 = j := congrArg Prod.snd hc
        cases hp : e.1 with
        | mk a b =>
          rw [hp] at h1 h2
          simp at h1 h2
          simp [h1, h2]
      simp [h, hne]

theorem toDense_sliceRows (s : Sp) (start stop i j : ℕ) :
    toDense (sliceRows s start stop) i j
      = if start + i < min stop s.rows then toDense s (start + i) j else 0 := by
  unfold toDense sliceRows
  simp only
  induction s.entries with
  | nil => by_cases h : start + i < min stop s.rows <;> simp [denseL, valuesAt, h]
  | cons e t ih =>
    by_cases hc : start ≤ e.1.1 ∧ e.1.1 < min stop s.rows
    · rw [List.filter_cons_of_pos (by simpa using hc), List.map_cons, denseL_cons, ih]
      by_cases hin : start + i < min stop s.rows
      · rw [denseL_cons]
        simp only [if_pos hin]
        congr 1
        by_cases he : e.1 = (start + i, j)
        · have h1 : e.1.1 = start + i := by rw [he]
          have h2 : e.1.2 = j := by rw [he]
          have : e.1.1 - start = i := by omega
          simp [he, Prod.ext_iff, this, h2]
        · have : (e.1.1 - start, e.1.2) ≠ (i, j) := by
            intro hcontra
            apply he
            have h1 : e.1.1 - start = i := congrArg Prod.fst hcontra
            have h2 : e.1.2 = j := congrArg Prod.snd hcontra
            have h3 : e.1.1 = start + i := by omega
            rw [Prod.ext_iff]
            exact ⟨h3, h2⟩
          simp [this, he]
      · simp only [if_neg hin]
        have : (e.1.1 - start, e.1.2) ≠ (i, j) := by
          intro hcontra
          apply hin
          have h1 : e.1.1 - start = i := congrArg Prod.fst hcontra
          have h3 : e.1.1 = start + i := by omega
          omega
        simp [this]
    · rw [List.filter_cons_of_neg (by simpa using hc)]
      rw [ih]
      by_cases hin : start + i < min stop s.rows
      · simp only [if_pos hin]
        rw [denseL_cons]
        have : e.1 ≠ (start + i, j) := by
          intro hcontra
          apply hc
          have h1 : e.1.1 = start + i := by rw [hcontra]
          constructor <;> omega
        simp [this]
      · simp [hin]


theorem denseL_flatMap {α : Type} (l : List α) (f : α → KList (ℕ × ℕ)) (k : ℕ × ℕ) :
    denseL (l.flatMap f) k = (l.map (fun a => denseL (f a) k)).sum := by
  induction l with
  | nil => rfl
  | cons a t ih => simp [List.flatMap_cons, denseL_append, ih]


theorem denseL_matmul_inner (a : (ℕ × ℕ) × ℚ) (l : KList (ℕ × ℕ)) (i j : ℕ) :
    denseL (l.filterMap (fun b =>
        if a.1.2 = b.1.1 then some ((a.1.1, b.1.2), a.2 * b.2) else none)) (i, j)
      = if a.1.1 = i then a.2 * denseL l (a.1.2, j) else 0 := by
  induction l with
  | nil => by_cases h : a.1.1 = i <;> simp [denseL, valuesAt, h]
  | cons b t ih =>
    rw [List.filterMap_cons]
    by_cases hab : a.1.2 = b.1.1
    · rw [if_pos hab, denseL_cons, ih, denseL_cons]
      by_cases hi : a.1.1 = i
      · by_cases hbj : b.1.2 = j
        · have h2 : b.1 = (a.1.2, j) := by
            rw [Prod.ext_iff]; exact ⟨hab.symm, hbj⟩
          simp [hi, hbj, h2, mul_add]
        · have h2 : b.1 ≠ (a.1.2, j) := by
            intro hc; exact hbj (congrArg Prod.snd hc)
          simp [hi, hbj, h2]
      · simp [hi]
    · rw [if_neg hab, ih]
      by_cases hi : a.1.1 = i
      · rw [denseL_cons]
        have h2 : b.1 ≠ (a.1.2, j) := by
          intro hc; exact hab (congrArg Prod.fst hc).symm
        simp [h2, hi]
      · simp [hi]

theorem denseL_bucket_row (l : KList (ℕ × ℕ)) (i k : ℕ) :
    ((l.filter (fun e => decide (e.1.2 = k))).map (fun a => if a.1.1 = i then a.2 else 0)).sum
      = denseL l (i, k) := by
  induction l with
  | nil => rfl
  | cons e t ih =>
    rw [denseL_cons]
    by_cases h2 : e.1.2 = k
    · rw [List.filter_cons_of_pos (by simpa using h2), List.map_cons, List.sum_cons, ih]
      congr 1
      by_cases h1 : e.1.1 = i
      · have he : e.1 = (i, k) := by rw [Prod.ext_iff]; exact ⟨h1, h2⟩
        simp [he, h1]
      · have he : e.1 ≠ (i, k) := by intro hc; exact h1 (congrArg Prod.fst hc)
        simp [he, h1]
    · rw [List.filter_cons_of_neg (by simpa using h2), ih]
      have he : e.1 ≠ (i, k) := by intro hc; exact h2 (congrArg Prod.snd hc)
      simp [he]

theorem denseL_bucket_col (l : KList (ℕ × ℕ)) (i j : ℕ) :
    ((l.filter (fun e => decide (e.1.1 = i))).map (fun a => if a.1.2 = j then a.2 else 0)).sum
      = denseL l (i, j) := by
  induction l with
  | nil => rfl
  | cons e t ih =>
    rw [denseL_cons]
    by_cases h1 : e.1.1 = i
    · rw [List.filter_cons_of_pos (by simpa using h1), List.map_cons, List.sum_cons, ih]
      congr 1
      by_cases h2 : e.1.2 = j
      · have he : e.1 = (i, j) := by rw [Prod.ext_iff]; exact ⟨h1, h2⟩
        simp [he, h2]
      · have he : e.1 ≠ (i, j) := by intro hc; exact h2 (congrArg Prod.snd hc)
        simp [he, h2]
    · rw [List.filter_cons_of_neg (by simpa using h1), ih]
      have he : e.1 ≠ (i, j) := by intro hc; exact h1 (congrArg Prod.fst hc)
      simp [he]

/-- The COO matrix product agrees with the textbook dense product. -/
theorem toDense_spMatmul (A B : Sp) (hA : ∀ e ∈ A.entries, e.1.2 < A.cols) (i j : ℕ) :
    toDense (spMatmul A B) i j
      = ((List.range A.cols).map (fun k => toDense A i k * toDense B k j)).sum := by
  unfold toDense spMatmul
  simp only
  rw [denseL_coalesceAdd, denseL_flatMap]
  have hstep : (A.entries.map (fun a => denseL (B.entries.filterMap (fun b =>
      if a.1.2 = b.1.1 then some ((a.1.1, b.1.2), a.2 * b.2) else none)) (i, j))).sum
      = (A.entries.map (fun a => if a.1.1 = i then a.2 * denseL B.entries (a.1.2, j) else 0)).sum := by
    congr 1
    apply List.map_congr_left
    intro a _
    exact denseL_matmul_inner a B.entries i j
  rw [hstep]
  rw [sum_bucket A.entries (fun a => a.1.2) _ A.cols (fun e he => hA e he)]
  congr 1
  apply List.map_congr_left
  intro k hk
  have hcongr : ((A.entries.filter (fun e => decide (e.1.2 = k))).map
        (fun a => if a.1.1 = i then a.2 * denseL B.entries (a.1.2, j) else 0))
      = ((A.entries.filter (fun e => decide (e.1.2 = k))).map
        (fun a => (if a.1.1 = i then a.2 else 0) * denseL B.entries (k, j))) := by
    apply List.map_congr_left
    intro a ha
    have hak : a.1.2 = k := by simpa using (List.mem_filter.mp ha).2
    by_cases hi : a.1.1 = i <;> simp [hi, hak]
  rw [hcongr, List.sum_map_mul_right, denseL_bucket_row A.entries i k]

theorem row_if_sum (l : KList (ℕ × ℕ)) (i : ℕ) :
    ((l.filter (fun e => decide (e.1.1 = i))).map Prod.snd).sum
      = (l.map (fun e => if e.1.1 = i then e.2 else 0)).sum := by
  induction l with
  | nil => rfl
  | cons e t ih => by_cases h : e.1.1 = i <;> simp [List.filter_cons, h, ih]

theorem col_if_sum (l : KList (ℕ × ℕ)) (j : ℕ) :
    ((l.filter (fun e => decide (e.1.2 = j))).map Prod.snd).sum
      = (l.map (fun e => if e.1.2 = j then e.2 else 0)).sum := by
  induction l with
  | nil => rfl
  | cons e t ih => by_cases h : e.1.2 = j <;> simp [List.filter_cons, h, ih]

/-- Row degrees are row sums of the dense view (for in-bounds matrices). -/
theorem rowDeg_eq_sum (s : Sp) (hb : keysInBounds s) (i : ℕ) :
    rowDeg s i = ((List.range s.cols).map (fun j => toDense s i j)).sum := by
  unfold rowDeg
  rw [row_if_sum]
  rw [sum_bucket s.entries (fun e => e.1.2) (fun e => if e.1.1 = i then e.2 else 0) s.cols
    (fun e he => (hb e.1 (mem_keysL.mpr ⟨e.2, by simpa using he⟩)).2)]
  congr 1
  apply List.map_congr_left
  intro j _
  exact denseL_bucket_row s.entries i j

/-- Column degrees are column sums of the dense view (for in-bounds matrices). -/
theorem colDeg_eq_sum (s : Sp) (hb : keysInBounds s) (j : ℕ) :
    colDeg s j = ((List.range s.rows).map (fun i => toDense s i j)).sum := by
  unfold colDeg
  rw [col_if_sum]
  rw [sum_bucket s.entries (fun e => e.1.1) (fun e => if e.1.2 = j then e.2 else 0) s.rows
    (fun e he => (hb e.1 (mem_keysL.mpr ⟨e.2, by simpa using he⟩)).1)]
  congr 1
  apply List.map_congr_left
  intro i _
  exact denseL_bucket_col s.entries i j



/-- C4: `fitMulti` on a predictor constructed with `rounds = 1` performs
zero augmentation rounds and leaves the predictor in exactly the state a
single `fit(M)` call produces. -/
theorem fit_multi_rounds_one (globalM : Sp) (st : LinkPropState) (M : Sp) (bs total : ℕ)
    (h : st.rounds = 1) : fit_multi globalM st M bs total = Except.ok (fit st M) := by
  unfold fit_multi
  rw [h]
  rfl

theorem fit_multi_rounds_one_witness :
    fit_multi exW1 (st0 1 1) exW1 1 1 = Except.ok (fit (st0 1 1) exW1) :=
  fit_multi_rounds_one exW1 (st0 1 1) exW1 1 1 rfl

theorem predict_topk_isOk (globalM : Sp) (st : LinkPropState) (M : Sp) (start stop k : ℕ) :
    isOkE (predict_topk globalM st M start stop k) = true ↔ k ≤ M.cols := by
  unfold predict_topk
  by_cases h : M.cols < k
  · rw [if_pos h]
    simp [isOkE]
    omega
  · rw [if_neg h]
    simp [isOkE]
    omega

/-- C9: `predictTopk` succeeds exactly when `k` does not exceed the column
count of the batch matrix, and `fitMulti` derives its per-batch
`k = ceil(batchWeightSum * t / batchWidth)` with no upper cap: on a 1x1
matrix with `t = 2` the derived `k` is 2, and the `fit_multi` call fails. -/
theorem predict_topk_k_obligation :
    (∀ (globalM : Sp) (st : LinkPropState) (M : Sp) (start stop k : ℕ),
        isOkE (predict_topk globalM st M start stop k) = true ↔ k ≤ M.cols)
      ∧ kForBatch exW1 0 1 2 = 2
      ∧ exW1.cols < kForBatch exW1 0 1 2
      ∧ isOkE (fit_multi exW1 (st0 2 2) exW1 1 1) = false := by
  have hk : kForBatch exW1 0 1 2 = 2 := by
    unfold kForBatch exW1
    norm_num
    decide
  have ht : (fit (st0 2 2) exW1).t = 2 := rfl
  have hpred : predict_topk exW1 (fit (st0 2 2) exW1) exW1 0 1 (kForBatch exW1 0 1 2)
      = Except.error "selected index k out of range" := by
    rw [hk]
    unfold predict_topk
    rw [if_pos (by decide)]
  refine ⟨predict_topk_isOk, hk, by rw [hk]; decide, ?_⟩
  have hrounds : (st0 2 2).rounds = 2 := rfl
  simp only [fit_multi, hrounds]
  have hrange : List.range (2 - 1) = [0] := rfl
  rw [hrange]
  have haug : augRound exW1 (fit (st0 2 2) exW1) exW1 1 1
      = Except.error "selected index k out of range" := by
    unfold augRound
    rw [if_neg (by decide)]
    have hbatches : (batchStarts 1 1).map (fun s => (s, min (s + 1) 1)) = [(0, 1)] := rfl
    rw [hbatches]
    simp only [List.foldlM_cons, List.foldlM_nil]
    have hbatch : augBatch exW1 (fit (st0 2 2) exW1) exW1 exW1 (0, 1)
        = Except.error "selected index k out of range" := by
      unfold augBatch
      rw [ht, hpred]
    rw [hbatch]
    rfl
  rw [List.foldlM_cons, haug]
  rfl

theorem sparse_assign_ok_dense (m : SpZ) (i j : ℤ) (v : ℚ)
    (hi0 : 0 ≤ i) (hir : i < (m.rows : ℤ)) (hj0 : 0 ≤ j) (hjc : j < (m.cols : ℤ)) :
    ∃ m1 : SpZ, sparse_assign m i j v = Except.ok m1
      ∧ toDenseZ m1 i j = v ∧ keysNodup m1.entries
      ∧ m1.rows = m.rows ∧ m1.cols = m.cols := by
  have hwi : wrapIdx i m.rows = i := by unfold wrapIdx; rw [if_neg (by omega)]
  have hwj : wrapIdx j m.cols = j := by unfold wrapIdx; rw [if_neg (by omega)]
  refine ⟨⟨m.rows, m.cols, coalesceAdd (m.entries
      ++ [((i, j), v - toDenseZ m (wrapIdx i m.rows) (wrapIdx j m.cols))])⟩, ?_, ?_, ?_, rfl, rfl⟩
  · unfold sparse_assign
    rw [if_pos ⟨hir, hjc⟩]
  · show denseL (coalesceAdd (m.entries
      ++ [((i, j), v - toDenseZ m (wrapIdx i m.rows) (wrapIdx j m.cols))])) (i, j) = v
    rw [hwi, hwj, denseL_coalesceAdd, denseL_append]
    have hsingle : denseL [((i, j), v - toDenseZ m i j)] ((i, j) : ℤ × ℤ)
        = v - toDenseZ m i j := by
      simp [denseL, valuesAt]
    rw [hsingle]
    show denseL m.entries (i, j) + (v - denseL m.entries (i, j)) = v
    ring
  · exact keysNodup_coalesceBy _ _

/-- C7: for in-bounds `(i, j)`, `assign(M, i, j, v)` succeeds, reading cell
`(i, j)` afterwards yields `v`, the result has no duplicate triplets, and a
repeated identical assign is idempotent: the stored value stays `v` with
still no duplicate triplets (the inserted delta coalesces by summation). -/
theorem sparse_assign_idempotent (m : SpZ) (i j : ℤ) (v : ℚ)
    (hi0 : 0 ≤ i) (hir : i < (m.rows : ℤ)) (hj0 : 0 ≤ j) (hjc : j < (m.cols : ℤ)) :
    ∃ m1 m2 : SpZ,
      sparse_assign m i j v = Except.ok m1
      ∧ toDenseZ m1 i j = v ∧ keysNodup m1.entries
      ∧ sparse_assign m1 i j v = Except.ok m2
      ∧ toDenseZ m2 i j = v ∧ keysNodup m2.entries := by
  obtain ⟨m1, h1, hd1, hn1, hr1, hc1⟩ := sparse_assign_ok_dense m i j v hi0 hir hj0 hjc
  obtain ⟨m2, h2, hd2, hn2, _, _⟩ := sparse_assign_ok_dense m1 i j v hi0 (by omega) hj0 (by omega)
  exact ⟨m1, m2, h1, hd1, hn1, h2, hd2, hn2⟩

theorem sparse_assign_idempotent_witness :
    ∃ m1 m2 : SpZ,
      sparse_assign exSZ 0 1 5 = Except.ok m1
      ∧ toDenseZ m1 0 1 = 5 ∧ keysNodup m1.entries
      ∧ sparse_assign m1 0 1 5 = Except.ok m2
      ∧ toDenseZ m2 0 1 = 5 ∧ keysNodup m2.entries :=
  sparse_assign_idempotent exSZ 0 1 5 (by decide) (by decide) (by decide) (by decide)

/-- C8 counterexample: the source guard `assert i < rows and j < cols`
checks only the upper bounds, so assigning at row `-1` — outside the
declared shape — does not fail (the underlying torch indexing wraps
python-style), refuting the claimed if-and-only-if. -/
theorem sparse_assign_negative_index_no_failure :
    isOkE (sparse_assign exSZ (-1) 0 5) = true ∧ ((-1 : ℤ) < 0) := by
  constructor
  · rfl
  · decide

/-- C8 amended: `assign(M, i, j, v)` fails exactly when `i ≥ rows` or
`j ≥ cols`; indices below `0` pass the guard and the call succeeds. -/
theorem sparse_assign_fails_iff (m : SpZ) (i j : ℤ) (v : ℚ) :
    isOkE (sparse_assign m i j v) = true ↔ (i < (m.rows : ℤ) ∧ j < (m.cols : ℤ)) := by
  unfold sparse_assign
  by_cases h : i < (m.rows : ℤ) ∧ j < (m.cols : ℤ)
  · rw [if_pos h]
    simp [isOkE, h]
  · rw [if_neg h]
    simp [isOkE, h]

theorem spMatmul_cols (A B : Sp) : (spMatmul A B).cols = B.cols := rfl

theorem transposeSp_cols (s : Sp) : (transposeSp s).cols = s.rows := rfl

theorem sliceRows_cols (s : Sp) (a b : ℕ) : (sliceRows s a b).cols = s.cols := rfl

theorem transposeSp_cols_wf (s : Sp) (hs : ∀ e ∈ s.entries, e.1.1 < s.rows) :
    ∀ e ∈ (transposeSp s).entries, e.1.2 < (transposeSp s).cols := by
  intro e he
  unfold transposeSp at he ⊢
  simp only at he ⊢
  rcases List.mem_map.mp he with ⟨x, hx, hxe⟩
  have hb := hs x hx
  rw [← hxe]
  simpa using hb

theorem sliceRows_cols_wf (s : Sp) (hs : ∀ e ∈ s.entries, e.1.2 < s.cols) (a b : ℕ) :
    ∀ e ∈ (sliceRows s a b).entries, e.1.2 < (sliceRows s a b).cols := by
  intro e he
  unfold sliceRows at he ⊢
  simp only at he ⊢
  rcases List.mem_map.mp he with ⟨x, hx, hxe⟩
  have hb := hs x (List.mem_filter.mp hx).1
  rw [← hxe]
  simpa using hb

theorem spMatmul_cols_wf (A B : Sp) (hB : ∀ e ∈ B.entries, e.1.2 < B.cols) :
    ∀ e ∈ (spMatmul A B).entries, e.1.2 < (spMatmul A B).cols := by
  intro e he
  unfold spMatmul at he ⊢
  simp only at he ⊢
  have he2 : (e.1, e.2) ∈ coalesceAdd (A.entries.flatMap (fun a =>
      B.entries.filterMap (fun b =>
        if a.1.2 = b.1.1 then some ((a.1.1, b.1.2), a.2 * b.2) else none))) := by
    simpa using he
  have hkey := (mem_coalesceBy_char _ _ _ _).mp he2
  rcases mem_keysL.mp hkey.1 with ⟨v, hv⟩
  rcases List.mem_flatMap.mp hv with ⟨a, _, hin⟩
  rcases List.mem_filterMap.mp hin with ⟨b, hbmem, hsome⟩
  by_cases hc : a.1.2 = b.1.1
  · rw [if_pos hc] at hsome
    injection hsome with hs1
    have hcol : e.1.2 = b.1.2 := by
      have := congrArg Prod.fst hs1
      have h2 := congrArg Prod.snd this
      simpa using h2.symm
    rw [hcol]
    exact hB b hbmem
  · rw [if_neg hc] at hsome
    cases hsome

theorem toDense_get_preds_formula (globalM : Sp) (st : LinkPropState) (A B : Sp)
    (hA : st.M_alpha_beta = some A) (hB : st.M_gamma_delta = some B)
    (hwfA : ∀ e ∈ A.entries, e.1.2 < A.cols)
    (hwfG : ∀ e ∈ globalM.entries, e.1.1 < globalM.rows)
    (hcols : A.cols = globalM.cols)
    (start stop i j : ℕ) :
    toDense (get_preds_for_users globalM st start stop) i j
      = ((List.range globalM.rows).map (fun l =>
          ((List.range globalM.cols).map (fun c =>
            toDense (sliceRows A start stop) i c * toDense globalM l c)).sum
          * toDense B l j)).sum := by
  unfold get_preds_for_users
  rw [hA, hB]
  simp only [orEmpty]
  rw [toDense_spMatmul _ B (spMatmul_cols_wf _ _ (transposeSp_cols_wf globalM hwfG))]
  simp only [spMatmul_cols, transposeSp_cols]
  congr 1
  apply List.map_congr_left
  intro l hl
  congr 1
  rw [toDense_spMatmul _ _ (sliceRows_cols_wf A hwfA start stop)]
  simp only [sliceRows_cols]
  rw [hcols]
  congr 1
  apply List.map_congr_left
  intro c hc
  rw [toDense_transpose]

/-- C2 amended: the prediction scores for a row range `[start, stop)` equal
`M_alpha_beta[start:stop] @ globalMᵀ @ M_gamma_delta`, where the middle
factor is the ambient module-level matrix loaded at import time — not the
matrix that was supplied to the fit/predict call. -/
theorem get_preds_uses_global_matrix (globalM : Sp) (st : LinkPropState) (A B : Sp)
    (hA : st.M_alpha_beta = some A) (hB : st.M_gamma_delta = some B)
    (hwfA : ∀ e ∈ A.entries, e.1.2 < A.cols)
    (hwfG : ∀ e ∈ globalM.entries, e.1.1 < globalM.rows)
    (hcols : A.cols = globalM.cols)
    (start stop i j : ℕ) :
    toDense (get_preds_for_users globalM st start stop) i j
      = ((List.range globalM.rows).map (fun l =>
          ((List.range globalM.cols).map (fun c =>
            toDense (sliceRows A start stop) i c * toDense globalM l c)).sum
          * toDense B l j)).sum :=
  toDense_get_preds_formula globalM st A B hA hB hwfA hwfG hcols start stop i j

/-- C2 counterexample: fit on the working matrix `W = [[1]]` while the
ambient module-level matrix is `[[2]]`; the computed score is `2` (it
bridges through the ambient matrix), while the claim's formula bridging
through the supplied `W` gives `1`. -/
theorem get_preds_global_vs_claimed :
    toDense (get_preds_for_users exG2 (fit (st0 1 1) exW1) 0 1) 0 0 = 2
      ∧ toDense (get_preds_claimed exW1 (fit (st0 1 1) exW1) 0 1) 0 0 = 1 := by
  constructor
  · simp [get_preds_for_users, fit, st0, initState, orEmpty, reweight, sparse_nonzero,
      exW1, exG2, spMatmul, transposeSp, sliceRows, coalesceAdd, coalesceBy, keysL,
      valuesAt, denseL, toDense, rowDeg, colDeg, negPow, List.dedup]
  · simp [get_preds_claimed, fit, st0, initState, orEmpty, reweight, sparse_nonzero,
      exW1, exG2, spMatmul, transposeSp, sliceRows, coalesceAdd, coalesceBy, keysL,
      valuesAt, denseL, toDense, rowDeg, colDeg, negPow, List.dedup]

theorem reweight_cols_wf (M : Sp) (ud idg : ℕ → ℚ) (e1 e2 : ℤ)
    (hM : ∀ e ∈ M.entries, e.1.2 < M.cols) :
    ∀ e ∈ (reweight M ud idg e1 e2).entries, e.1.2 < (reweight M ud idg e1 e2).cols := by
  intro e he
  unfold reweight sparse_nonzero at he ⊢
  simp only at he ⊢
  rcases List.mem_map.mp he with ⟨x, hx, hxe⟩
  have hb := hM x (List.mem_filter.mp hx).1
  rw [← hxe]
  simpa using hb

theorem get_preds_uses_global_matrix_witness :
    ∃ A B : Sp,
      (fit (st0 1 1) exW1).M_alpha_beta = some A
      ∧ (fit (st0 1 1) exW1).M_gamma_delta = some B
      ∧ toDense (get_preds_for_users exG2 (fit (st0 1 1) exW1) 0 1) 0 0
        = ((List.range exG2.rows).map (fun l =>
            ((List.range exG2.cols).map (fun c =>
              toDense (sliceRows A 0 1) 0 c * toDense exG2 l c)).sum
            * toDense B l 0)).sum :=
  ⟨_, _, rfl, rfl,
    get_preds_uses_global_matrix exG2 (fit (st0 1 1) exW1) _ _ rfl rfl
      (reweight_cols_wf _ _ _ _ _ (by decide)) (by decide) rfl 0 1 0 0⟩

theorem topkIdx_length_le (f : ℕ → ℚ) (n k : ℕ) : (topkIdx f n k).length ≤ k := by
  unfold topkIdx
  rw [List.length_take]
  exact min_le_left _ _

/-- C1 amended: every row list returned by `predict_topk` has length at
most `k` and only ids with strictly positive masked score; it contains no
observed (`== 1`) column id whose raw score is at most the `1e5` sentinel —
an observed id can appear only when its raw score exceeds `100000`. -/
theorem predict_topk_amended (globalM : Sp) (st : LinkPropState) (M : Sp)
    (start stop k : ℕ) (res : List (List ℕ))
    (h : predict_topk globalM st M start stop k = Except.ok res)
    (i : ℕ) (hi : i < res.length) :
    (res.get ⟨i, hi⟩).length ≤ k
    ∧ ∀ j ∈ res.get ⟨i, hi⟩,
        0 < maskedScore globalM st M start stop i j
        ∧ (toDense M (start + i) j = 1
            → 100000 < toDense (get_preds_for_users globalM st start stop) i j) := by
  unfold predict_topk at h
  by_cases hk : M.cols < k
  · rw [if_pos hk] at h
    cases h
  · rw [if_neg hk] at h
    injection h with h
    subst h
    have hrow : ((List.range (min stop M.rows - start)).map (fun r =>
        (topkIdx (fun j => maskedScore globalM st M start stop r j) M.cols k).filter
          (fun j => decide (0 < maskedScore globalM st M start stop r j)))).get ⟨i, hi⟩
        = (topkIdx (fun j => maskedScore globalM st M start stop i j) M.cols k).filter
          (fun j => decide (0 < maskedScore globalM st M start stop i j)) := by
      simp [List.get_eq_getElem]
    rw [hrow]
    constructor
    · exact le_trans (List.length_filter_le _ _) (topkIdx_length_le _ _ _)
    · intro j hj
      have hmem := List.mem_filter.mp hj
      have hpos : 0 < maskedScore globalM st M start stop i j := by
        simpa using hmem.2
      refine ⟨hpos, ?_⟩
      intro hobs
      have hpos2 := hpos
      unfold maskedScore at hpos2
      rw [if_pos hobs] at hpos2
      rcases lt_max_iff.mp hpos2 with hlt | hcontra
      · linarith
      · exact absurd hcontra (lt_irrefl 0)

/-- C1 counterexample: fit with zero exponents on `[[1, 1000]]` (also the
ambient matrix).  The observed cell `(0, 0)` — stored value exactly 1 — has
raw score `1000001 > 1e5`, survives the sentinel mask with masked score
`900001`, and `predict_topk` returns its column id `0`, refuting the
unconditional exclusion of observed entries. -/
theorem predict_topk_returns_observed_entry :
    predict_topk exM12 (fit (st0 1 1) exM12) exM12 0 1 2 = Except.ok [[1, 0]]
      ∧ toDense exM12 0 0 = 1 := by
  have hM00 : toDense exM12 0 0 = 1 := by
    simp [toDense, exM12, denseL, valuesAt, List.filter_cons]
  have hM01 : toDense exM12 0 1 = 1000 := by
    simp [toDense, exM12, denseL, valuesAt, List.filter_cons, Prod.mk.injEq]
    rw [if_neg (by decide)]
    simp
  have hA := (rfl :
    (fit (st0 1 1) exM12).M_alpha_beta
      = some (reweight exM12 (fun i => rowDeg exM12 i) (fun j => colDeg exM12 j) 0 0))
  have hA00 : toDense (reweight exM12
      (fun i => rowDeg exM12 i) (fun j => colDeg exM12 j) 0 0) 0 0 = 1 := by
    simp [reweight, sparse_nonzero, exM12, toDense, denseL, valuesAt, negPow,
      List.filter_cons]
  have hA01 : toDense (reweight exM12
      (fun i => rowDeg exM12 i) (fun j => colDeg exM12 j) 0 0) 0 1 = 1000 := by
    simp [reweight, sparse_nonzero, exM12, toDense, denseL, valuesAt, negPow,
      List.filter_cons, Prod.mk.injEq]
    rw [if_neg (by decide)]
    simp
  have hsl : ∀ c, toDense (sliceRows (reweight exM12
      (fun i => rowDeg exM12 i) (fun j => colDeg exM12 j) 0 0) 0 1) 0 c
      = toDense (reweight exM12 (fun i => rowDeg exM12 i) (fun j => colDeg exM12 j) 0 0) 0 c := by
    intro c
    rw [toDense_sliceRows]
    norm_num [reweight, exM12]
  have hscore : ∀ j, toDense (get_preds_for_users exM12 (fit (st0 1 1) exM12) 0 1) 0 j
      = ((List.range exM12.rows).map (fun l =>
          ((List.range exM12.cols).map (fun c =>
            toDense (sliceRows (reweight exM12
              (fun i => rowDeg exM12 i) (fun j => colDeg exM12 j) 0 0) 0 1) 0 c
            * toDense exM12 l c)).sum
          * toDense (reweight exM12
              (fun i => rowDeg exM12 i) (fun j => colDeg exM12 j) 0 0) l j)).sum :=
    fun j => toDense_get_preds_formula exM12 (fit (st0 1 1) exM12) _ _ rfl rfl
      (reweight_cols_wf _ _ _ _ _ (by decide)) (by decide) rfl 0 1 0 j
  have hscore0 : toDense (get_preds_for_users exM12 (fit (st0 1 1) exM12) 0 1) 0 0
      = 1000001 := by
    rw [hscore 0]
    have hr : exM12.rows = 1 := rfl
    have hc : exM12.cols = 2 := rfl
    rw [hr, hc]
    simp only [List.range_succ, List.range_zero]
    simp only [List.nil_append, List.map_cons, List.map_nil, List.sum_cons, List.sum_nil,
      List.map_append, List.sum_append]
    rw [hsl 0, hsl 1, hA00, hA01, hM00, hM01]
    norm_num
  have hscore1 : toDense (get_preds_for_users exM12 (fit (st0 1 1) exM12) 0 1) 0 1
      = 1000001000 := by
    rw [hscore 1]
    have hr : exM12.rows = 1 := rfl
    have hc : exM12.cols = 2 := rfl
    rw [hr, hc]
    simp only [List.range_succ, List.range_zero]
    simp only [List.nil_append, List.map_cons, List.map_nil, List.sum_cons, List.sum_nil,
      List.map_append, List.sum_append]
    rw [hsl 0, hsl 1, hA00, hA01, hM00, hM01]
    norm_num
  have hm0 : maskedScore exM12 (fit (st0 1 1) exM12) exM12 0 1 0 0 = 900001 := by
    unfold maskedScore
    rw [hscore0]
    norm_num [hM00]
  have hm1 : maskedScore exM12 (fit (st0 1 1) exM12) exM12 0 1 0 1 = 1000001000 := by
    unfold maskedScore
    rw [hscore1]
    norm_num [hM01]
  refine ⟨?_, hM00⟩
  unfold predict_topk
  rw [if_neg (by decide)]
  have hh : min 1 exM12.rows - 0 = 1 := rfl
  rw [hh]
  simp only [List.range_succ, List.range_zero, List.nil_append, List.map_cons, List.map_nil]
  unfold topkIdx
  have hcols : exM12.cols = 2 := rfl
  rw [hcols]
  norm_num [sortByDesc, insertByDesc, hm0, hm1, List.range_succ]

theorem predict_topk_exW1_empty (r : ℕ) (tq : ℚ) :
    predict_topk exW1 (fit (st0 r tq) exW1) exW1 0 1 1 = Except.ok [[]] := by
  have hW00 : toDense exW1 0 0 = 1 := by
    simp [toDense, exW1, denseL, valuesAt, List.filter_cons]
  have hA00 : toDense (reweight exW1
      (fun i => rowDeg exW1 i) (fun j => colDeg exW1 j) 0 0) 0 0 = 1 := by
    simp [reweight, sparse_nonzero, exW1, toDense, denseL, valuesAt, negPow,
      List.filter_cons]
  have hsl : toDense (sliceRows (reweight exW1
      (fun i => rowDeg exW1 i) (fun j => colDeg exW1 j) 0 0) 0 1) 0 0
      = toDense (reweight exW1
        (fun i => rowDeg exW1 i) (fun j => colDeg exW1 j) 0 0) 0 0 := by
    rw [toDense_sliceRows]
    norm_num [reweight, exW1]
  have hscore0 : toDense (get_preds_for_users exW1 (fit (st0 r tq) exW1) 0 1) 0 0
      = 1 := by
    rw [toDense_get_preds_formula exW1 (fit (st0 r tq) exW1)
      (reweight exW1 (fun i => rowDeg exW1 i) (fun j => colDeg exW1 j) 0 0)
      (reweight exW1 (fun i => rowDeg exW1 i) (fun j => colDeg exW1 j) 0 0)
      rfl rfl (reweight_cols_wf _ _ _ _ _ (by decide)) (by decide) rfl 0 1 0 0]
    have hr : exW1.rows = 1 := rfl
    have hc : exW1.cols = 1 := rfl
    rw [hr, hc]
    simp only [List.range_succ, List.range_zero, List.nil_append, List.map_cons,
      List.map_nil, List.sum_cons, List.sum_nil]
    rw [hsl, hA00, hW00]
    norm_num
  have hm0 : maskedScore exW1 (fit (st0 r tq) exW1) exW1 0 1 0 0 = 0 := by
    unfold maskedScore
    rw [hscore0]
    norm_num [hW00]
  unfold predict_topk
  rw [if_neg (by decide)]
  have hh : min 1 exW1.rows - 0 = 1 := rfl
  rw [hh]
  simp only [List.range_succ, List.range_zero, List.nil_append, List.map_cons,
    List.map_nil]
  unfold topkIdx
  have hc : exW1.cols = 1 := rfl
  rw [hc]
  norm_num [sortByDesc, insertByDesc, hm0, List.range_succ]

theorem predict_topk_amended_witness :
    (([[]] : List (List ℕ)).get ⟨0, Nat.one_pos⟩).length ≤ 1
    ∧ ∀ j ∈ ([[]] : List (List ℕ)).get ⟨0, Nat.one_pos⟩,
        0 < maskedScore exW1 (fit (st0 1 1) exW1) exW1 0 1 0 j
        ∧ (toDense exW1 (0 + 0) j = 1
            → 100000 < toDense (get_preds_for_users exW1 (fit (st0 1 1) exW1) 0 1) 0 j) :=
  predict_topk_amended exW1 (fit (st0 1 1) exW1) exW1 0 1 1 [[]]
    (predict_topk_exW1_empty 1 1) 0 Nat.one_pos

theorem sum_map_const {α : Type} (l : List α) (c : ℚ) :
    (l.map (fun _ => c)).sum = l.length * c := by
  induction l with
  | nil => simp
  | cons a t ih =>
    simp [ih]
    ring

theorem avgPrec_perfect (truth pred : List ℕ) (k : ℕ) (hk : 0 < k)
    (ht : truth = pred.take k) (hlen : truth.length = k) :
    avgPrec truth pred k = 1 := by
  have hrel : ∀ j < k, relAt truth pred k j = 1 := by
    intro j hj
    unfold relAt
    have hjlen : j < (pred.take k).length := by
      rw [← ht, hlen]
      exact hj
    rw [List.get?_eq_get hjlen]
    simp only
    have hmem : (pred.take k).get ⟨j, hjlen⟩ ∈ truth := by
      rw [ht]
      exact List.get_mem _ _ _
    rw [if_pos hmem]
  have hcum : ∀ j < k, cumRel truth pred k j = (j : ℚ) + 1 := by
    intro j hj
    unfold cumRel
    have hconst : (List.range (j + 1)).map (fun m => relAt truth pred k m)
        = (List.range (j + 1)).map (fun _ => (1 : ℚ)) := by
      apply List.map_congr_left
      intro m hm
      have hmj : m < j + 1 := List.mem_range.mp hm
      exact hrel m (by omega)
    rw [hconst, sum_map_const]
    simp
  unfold avgPrec
  have hterms : (List.range k).map
        (fun j => cumRel truth pred k j / (j + 1) * relAt truth pred k j)
      = (List.range k).map (fun _ => (1 : ℚ)) := by
    apply List.map_congr_left
    intro j hj
    have hjk := List.mem_range.mp hj
    rw [hcum j hjk, hrel j hjk]
    have hnz : ((j : ℚ) + 1) ≠ 0 := by positivity
    field_simp
  rw [hterms, sum_map_const]
  simp only [List.length_range, mul_one]
  have hnz : (k : ℚ) ≠ 0 := by positivity
  rw [div_self hnz]

theorem avgPrec_zero (truth pred : List ℕ) (k : ℕ)
    (h : ∀ x ∈ pred, x ∉ truth) : avgPrec truth pred k = 0 := by
  have hrel : ∀ j, relAt truth pred k j = 0 := by
    intro j
    unfold relAt
    cases hg : (pred.take k).get? j with
    | none => rfl
    | some p =>
      have hp : p ∈ pred := List.mem_of_mem_take (List.get?_mem hg)
      simp [h p hp]
  unfold avgPrec
  have hterms : (List.range k).map
        (fun j => cumRel truth pred k j / (j + 1) * relAt truth pred k j)
      = (List.range k).map (fun _ => (0 : ℚ)) := by
    apply List.map_congr_left
    intro j _
    rw [hrel j]
    ring
  rw [hterms, sum_map_const]
  simp

/-- C6: `meanAveragePrecision(yTrue, yPred, k)` is `1` when, row by row, the
predicted top-k list exactly equals the true relevant list (of length `k`),
and `0` when no predicted id intersects the true set of its row. -/
theorem mean_average_precision_extremes (y_true y_pred : List (List ℕ)) (k : ℕ)
    (hlen : y_true.length = y_pred.length) (hne : 0 < y_true.length) (hk : 0 < k) :
    ((∀ p ∈ y_true.zip y_pred, p.1 = p.2.take k ∧ p.1.length = k)
        → mean_average_precision y_true y_pred k = 1)
    ∧ ((∀ p ∈ y_true.zip y_pred, ∀ x ∈ p.2, x ∉ p.1)
        → mean_average_precision y_true y_pred k = 0) := by
  have hnz : (y_true.length : ℚ) ≠ 0 := by positivity
  constructor
  · intro hp
    unfold mean_average_precision
    have hmap : (y_true.zip y_pred).map (fun p => avgPrec p.1 p.2 k)
        = (y_true.zip y_pred).map (fun _ => (1 : ℚ)) := by
      apply List.map_congr_left
      intro p hpz
      exact avgPrec_perfect p.1 p.2 k hk (hp p hpz).1 (hp p hpz).2
    rw [hmap, sum_map_const, List.length_zip, ← hlen, min_self, mul_one, div_self hnz]
  · intro hp
    unfold mean_average_precision
    have hmap : (y_true.zip y_pred).map (fun p => avgPrec p.1 p.2 k)
        = (y_true.zip y_pred).map (fun _ => (0 : ℚ)) := by
      apply List.map_congr_left
      intro p hpz
      exact avgPrec_zero p.1 p.2 k (hp p hpz)
    rw [hmap, sum_map_const]
    simp

theorem mean_average_precision_extremes_witness :
    ((∀ p ∈ ([[5]] : List (List ℕ)).zip ([[5]] : List (List ℕ)),
        p.1 = p.2.take 1 ∧ p.1.length = 1)
      → mean_average_precision [[5]] [[5]] 1 = 1)
    ∧ ((∀ p ∈ ([[5]] : List (List ℕ)).zip ([[5]] : List (List ℕ)), ∀ x ∈ p.2, x ∉ p.1)
      → mean_average_precision [[5]] [[5]] 1 = 0) :=
  mean_average_precision_extremes [[5]] [[5]] 1 rfl (by decide) (by decide)

theorem keysL_append {κ : Type} [DecidableEq κ] (a b : KList κ) :
    keysL (a ++ b) = keysL a ++ keysL b := by
  simp [keysL]

theorem keysL_map_pair (pairs : List (ℕ × ℕ)) (c : ℚ) :
    keysL (pairs.map (fun p => (p, c))) = pairs := by
  simp [keysL, List.map_map]
  exact List.map_id _

theorem valuesAt_map_pair_all_ones (pairs : List (ℕ × ℕ)) (key : ℕ × ℕ) :
    ∀ x ∈ valuesAt (pairs.map (fun p => (p, (1 : ℚ)))) key, x = 1 := by
  intro x hx
  unfold valuesAt at hx
  rcases List.mem_map.mp hx with ⟨e, he, hxe⟩
  rcases List.mem_map.mp (List.mem_filter.mp he).1 with ⟨p, _, hpe⟩
  rw [← hxe, ← hpe]

theorem valuesAt_map_pair_ne_nil (pairs : List (ℕ × ℕ)) (key : ℕ × ℕ)
    (h : key ∈ pairs) : valuesAt (pairs.map (fun p => (p, (1 : ℚ)))) key ≠ [] := by
  unfold valuesAt
  apply List.ne_nil_of_mem (a := (1 : ℚ))
  apply List.mem_map.mpr
  refine ⟨(key, 1), ?_, rfl⟩
  apply List.mem_filter.mpr
  exact ⟨List.mem_map.mpr ⟨key, h, rfl⟩, by simp⟩

theorem foldl_max_ones (a : ℚ) (t : List ℚ) (h : ∀ x ∈ t, x = 1) :
    t.foldl max a = if t = [] then a else max a 1 := by
  induction t generalizing a with
  | nil => simp
  | cons b bs ih =>
    have hb : b = 1 := h b (List.mem_cons_self _ _)
    rw [List.foldl_cons, hb, ih (max a 1) (fun x hx => h x (List.mem_cons_of_mem _ hx))]
    by_cases hbs : bs = []
    · simp [hbs]
    · rw [if_neg hbs, if_neg (List.cons_ne_nil _ _)]
      rw [max_assoc, max_self]

theorem maxRed_ones (l : List ℚ) (h : ∀ x ∈ l, x = 1) (hne : l ≠ []) : maxRed l = 1 := by
  cases l with
  | nil => exact absurd rfl hne
  | cons a t =>
    simp only [maxRed]
    have ha : a = 1 := h a (List.mem_cons_self _ _)
    rw [foldl_max_ones a t (fun x hx => h x (List.mem_cons_of_mem _ hx)), ha]
    by_cases ht : t = [] <;> simp [ht]

theorem maxRed_cons_ones (v : ℚ) (t : List ℚ) (h : ∀ x ∈ t, x = 1) (hne : t ≠ []) :
    maxRed (v :: t) = max v 1 := by
  simp only [maxRed]
  rw [foldl_max_ones v t h, if_neg hne]

/-- Dense semantics of the max-coalesce merge step of `fit_multi`: a merged
cell holds `max(previous value, 1)` at predicted coordinates and keeps the
previous value elsewhere — a predicted edge never shrinks a stored 1. -/
theorem toDense_mergePairs (acc : Sp) (pairs : List (ℕ × ℕ))
    (hnd : keysNodup acc.entries) (i j : ℕ) :
    toDense (mergePairs acc pairs) i j
      = if (i, j) ∈ pairs then max (toDense acc i j) 1 else toDense acc i j := by
  unfold mergePairs toDense
  simp only
  unfold coalesceMax
  rw [denseL_coalesceBy]
  rw [keysL_append, keysL_map_pair]
  by_cases hmem : (i, j) ∈ keysL acc.entries ++ pairs
  · rw [if_pos hmem]
    rw [valuesAt_append]
    by_cases hp : (i, j) ∈ pairs
    · rw [if_pos hp]
      by_cases ha : (i, j) ∈ keysL acc.entries
      · rcases mem_keysL.mp ha with ⟨v, hv⟩
        rw [valuesAt_of_mem_nodup hnd hv, denseL_of_mem_nodup hnd hv]
        rw [List.singleton_append]
        exact maxRed_cons_ones v _ (valuesAt_map_pair_all_ones pairs (i, j))
          (valuesAt_map_pair_ne_nil pairs (i, j) hp)
      · rw [valuesAt_eq_nil_of_not_mem ha, denseL_eq_zero_of_not_mem ha,
          List.nil_append]
        rw [maxRed_ones _ (valuesAt_map_pair_all_ones pairs (i, j))
          (valuesAt_map_pair_ne_nil pairs (i, j) hp)]
        rw [max_eq_right (by norm_num)]
    · rw [if_neg hp]
      have hznil : valuesAt (pairs.map (fun p => (p, (1 : ℚ)))) (i, j) = [] := by
        apply valuesAt_eq_nil_of_not_mem
        rw [keysL_map_pair]
        exact hp
      rw [hznil, List.append_nil]
      have ha : (i, j) ∈ keysL acc.entries := by
        rcases List.mem_append.mp hmem with h1 | h2
        · exact h1
        · exact absurd h2 hp
      rcases mem_keysL.mp ha with ⟨v, hv⟩
      rw [valuesAt_of_mem_nodup hnd hv, denseL_of_mem_nodup hnd hv]
      rfl
  · rw [if_neg hmem]
    have hp : (i, j) ∉ pairs := fun hc => hmem (List.mem_append.mpr (Or.inr hc))
    have ha : (i, j) ∉ keysL acc.entries := fun hc => hmem (List.mem_append.mpr (Or.inl hc))
    rw [if_neg hp, denseL_eq_zero_of_not_mem ha]

theorem keysNodup_mergePairs (acc : Sp) (pairs : List (ℕ × ℕ)) :
    keysNodup (mergePairs acc pairs).entries :=
  keysNodup_coalesceBy _ _

theorem keysInBounds_mergePairs (acc : Sp) (pairs : List (ℕ × ℕ))
    (hb : keysInBounds acc) (hp : ∀ p ∈ pairs, p.1 < acc.rows ∧ p.2 < acc.cols) :
    keysInBounds (mergePairs acc pairs) := by
  intro key hkey
  have hrows : (mergePairs acc pairs).rows = acc.rows := rfl
  have hcols : (mergePairs acc pairs).cols = acc.cols := rfl
  rw [hrows, hcols]
  unfold mergePairs at hkey
  simp only at hkey
  unfold coalesceMax at hkey
  rw [keysL_coalesceBy] at hkey
  have hkey2 := List.mem_dedup.mp hkey
  rw [keysL_append, keysL_map_pair] at hkey2
  rcases List.mem_append.mp hkey2 with h1 | h2
  · exact hb key h1
  · exact hp key h2

theorem mem_insertByDesc (f : ℕ → ℚ) (a x : ℕ) (l : List ℕ) :
    x ∈ insertByDesc f a l ↔ x = a ∨ x ∈ l := by
  induction l with
  | nil => simp [insertByDesc]
  | cons b t ih =>
    unfold insertByDesc
    by_cases hc : f a < f b
    · rw [if_pos hc]
      simp only [List.mem_cons, ih]
      tauto
    · rw [if_neg hc]
      simp only [List.mem_cons]

theorem mem_sortByDesc (f : ℕ → ℚ) (x : ℕ) (l : List ℕ) :
    x ∈ sortByDesc f l ↔ x ∈ l := by
  induction l with
  | nil => simp [sortByDesc]
  | cons a t ih =>
    unfold sortByDesc
    rw [mem_insertByDesc, ih]
    simp

theorem topkIdx_mem_lt (f : ℕ → ℚ) (n k : ℕ) : ∀ j ∈ topkIdx f n k, j < n := by
  intro j hj
  unfold topkIdx at hj
  have hmem := List.mem_of_mem_take hj
  rw [mem_sortByDesc] at hmem
  exact List.mem_range.mp hmem

theorem pairsFromAux_bounds (start R C : ℕ) (preds : List (List ℕ)) :
    ∀ (n : ℕ), (∀ r ∈ preds, ∀ j ∈ r, j < C)
    → (∀ m, m < preds.length → start + n + m < R)
    → ∀ p ∈ pairsFromAux start n preds, p.1 < R ∧ p.2 < C := by
  induction preds with
  | nil =>
    intro n _ _ p hp
    cases hp
  | cons row rest ih =>
    intro n hrow hlen p hp
    rcases List.mem_append.mp hp with hl | hr
    · rcases List.mem_map.mp hl with ⟨j, hj, hje⟩
      constructor
      · rw [← hje]
        simp only
        have h0 := hlen 0 (by simp)
        omega
      · rw [← hje]
        exact hrow row (List.mem_cons_self _ _) j hj
    · refine ih (n + 1) (fun r hrr => hrow r (List.mem_cons_of_mem _ hrr)) ?_ p hr
      intro m hm
      have hm2 := hlen (m + 1) (by simp only [List.length_cons]; omega)
      omega

theorem predict_topk_pairs_bounds (globalM : Sp) (st : LinkPropState) (M : Sp)
    (start stop k : ℕ) (res : List (List ℕ))
    (h : predict_topk globalM st M start stop k = Except.ok res) :
    ∀ p ∈ pairsFromPreds start res, p.1 < M.rows ∧ p.2 < M.cols := by
  unfold predict_topk at h
  by_cases hk : M.cols < k
  · rw [if_pos hk] at h
    cases h
  · rw [if_neg hk] at h
    injection h with h
    subst h
    unfold pairsFromPreds
    apply pairsFromAux_bounds start M.rows M.cols _ 0
    · intro r hr j hj
      rcases List.mem_map.mp hr with ⟨i, _, hie⟩
      rw [← hie] at hj
      exact topkIdx_mem_lt _ _ _ j (List.mem_filter.mp hj).1
    · intro m hm
      rw [List.length_map, List.length_range] at hm
      omega

theorem denseL_map_scale (l : KList (ℕ × ℕ)) (c : ℕ → ℕ → ℚ) (i j : ℕ) :
    denseL (l.map (fun e => (e.1, c e.1.1 e.1.2 * e.2))) (i, j)
      = c i j * denseL l (i, j) := by
  induction l with
  | nil => simp [denseL, valuesAt]
  | cons e t ih =>
    rw [List.map_cons, denseL_cons, denseL_cons, ih, mul_add]
    congr 1
    by_cases he : e.1 = (i, j)
    · have h1 : e.1.1 = i := by rw [he]
      have h2 : e.1.2 = j := by rw [he]
      rw [if_pos he, if_pos he, h1, h2]
    · rw [if_neg he, if_neg he, mul_zero]

/-- Dense semantics of the degree-reweighted propagation matrix: the
sparsity pattern and base values come from `M`, the weights from the
supplied degree vectors. -/
theorem toDense_reweight (M : Sp) (ud idg : ℕ → ℚ) (e1 e2 : ℤ) (i j : ℕ) :
    toDense (reweight M ud idg e1 e2) i j
      = negPow (ud i) e1 * negPow (idg j) e2 * toDense M i j := by
  unfold toDense reweight
  simp only
  rw [denseL_map_scale (sparse_nonzero M) (fun a b => negPow (ud a) e1 * negPow (idg b) e2) i j]
  rw [denseL_sparse_nonzero]

theorem foldlM_ok_inv {σ α : Type} (f : σ → α → Except String σ) (P : σ → Prop)
    (hstep : ∀ acc x res, P acc → f acc x = Except.ok res → P res) :
    ∀ (l : List α) (acc res : σ), P acc → l.foldlM f acc = Except.ok res → P res := by
  intro l
  induction l with
  | nil =>
    intro acc res hP h
    rw [List.foldlM_nil] at h
    injection h with h
    exact h ▸ hP
  | cons x t ih =>
    intro acc res hP h
    rw [List.foldlM_cons] at h
    cases hf : f acc x with
    | error e =>
      rw [hf] at h
      cases h
    | ok acc2 =>
      rw [hf] at h
      have h2 : t.foldlM f acc2 = Except.ok res := by
        simpa using h
      exact ih acc2 res (hstep acc x acc2 hP hf) h2

theorem augBatch_inv (globalM : Sp) (st : LinkPropState) (M : Sp) (acc res : Sp)
    (se : ℕ × ℕ)
    (hrows : acc.rows = M.rows) (hcols : acc.cols = M.cols)
    (hnd : keysNodup acc.entries) (hkb : keysInBounds acc)
    (pairs0 : List (ℕ × ℕ))
    (hp0 : ∀ p ∈ pairs0, p.1 < M.rows ∧ p.2 < M.cols)
    (hchar : ∀ i j, toDense acc i j
        = if (i, j) ∈ pairs0 then max (toDense M i j) 1 else toDense M i j)
    (h : augBatch globalM st M acc se = Except.ok res) :
    res.rows = M.rows ∧ res.cols = M.cols ∧ keysNodup res.entries ∧ keysInBounds res
    ∧ ∃ pairs : List (ℕ × ℕ), (∀ p ∈ pairs, p.1 < M.rows ∧ p.2 < M.cols)
        ∧ ∀ i j, toDense res i j
            = if (i, j) ∈ pairs then max (toDense M i j) 1 else toDense M i j := by
  unfold augBatch at h
  cases hpred : predict_topk globalM st M se.1 se.2 (kForBatch M se.1 se.2 st.t) with
  | error e =>
    rw [hpred] at h
    cases h
  | ok preds =>
    rw [hpred] at h
    injection h with h
    subst h
    have hnewb := predict_topk_pairs_bounds globalM st M se.1 se.2 _ preds hpred
    refine ⟨hrows, hcols, keysNodup_mergePairs acc _, ?_,
      pairs0 ++ pairsFromPreds se.1 preds, ?_, ?_⟩
    · have hkbm := keysInBounds_mergePairs acc (pairsFromPreds se.1 preds) hkb
        (fun p hp => by
          have := hnewb p hp
          omega)
      exact hkbm
    · intro p hp
      rcases List.mem_append.mp hp with h0 | h1
      · exact hp0 p h0
      · exact hnewb p h1
    · intro i j
      rw [toDense_mergePairs acc _ hnd i j, hchar i j]
      by_cases h1 : (i, j) ∈ pairsFromPreds se.1 preds
      · rw [if_pos h1]
        by_cases h0 : (i, j) ∈ pairs0
        · rw [if_pos h0, if_pos (List.mem_append.mpr (Or.inl h0)), max_assoc, max_self]
        · rw [if_neg h0, if_pos (List.mem_append.mpr (Or.inr h1))]
      · rw [if_neg h1]
        by_cases h0 : (i, j) ∈ pairs0
        · rw [if_pos h0, if_pos (List.mem_append.mpr (Or.inl h0))]
        · rw [if_neg h0, if_neg (fun hc => by
            rcases List.mem_append.mp hc with hcc | hcc
            · exact h0 hcc
            · exact h1 hcc)]

/-- C3: in each augmentation round of `fit_multi`, the predicted `(row,
col)` pairs are merged into a fresh working copy of `M` with value `1.0`
under max-coalesce (a merged cell holds `max(old, 1)`, so no stored 1 ever
shrinks, and coalescing leaves no duplicate coordinate); the degree cache
of the resulting state is recomputed from the merged matrix, while both
propagation matrices are rebuilt from the original matrix `M` passed into
the round (its sparsity pattern and values), reweighted by the updated
degrees. -/
theorem augRound_spec (globalM : Sp) (st : LinkPropState) (M : Sp) (bs total : ℕ)
    (st2 : LinkPropState)
    (h : augRound globalM st M bs total = Except.ok st2)
    (hnd : keysNodup M.entries) (hb : keysInBounds M) :
    ∃ pairs : List (ℕ × ℕ),
      keysNodup (mergePairs M pairs).entries
      ∧ (∀ i j, toDense (mergePairs M pairs) i j
          = if (i, j) ∈ pairs then max (toDense M i j) 1 else toDense M i j)
      ∧ (∃ ud idg : ℕ → ℚ, st2.degrees = some (ud, idg)
          ∧ (∀ i, ud i = rowDeg (mergePairs M pairs) i)
          ∧ (∀ j, idg j = colDeg (mergePairs M pairs) j))
      ∧ (∃ P Q : Sp, st2.M_alpha_beta = some P ∧ st2.M_gamma_delta = some Q
          ∧ (∀ i j, toDense P i j
              = negPow (rowDeg (mergePairs M pairs) i) st.alpha
                * negPow (colDeg (mergePairs M pairs) j) st.beta * toDense M i j)
          ∧ (∀ i j, toDense Q i j
              = negPow (rowDeg (mergePairs M pairs) i) st.gamma
                * negPow (colDeg (mergePairs M pairs) j) st.delta * toDense M i j)) := by
  unfold augRound at h
  by_cases hbs : bs = 0
  · rw [if_pos hbs] at h
    cases h
  · rw [if_neg hbs] at h
    cases hfold : ((batchStarts bs total).map (fun s => (s, min (s + bs) total))).foldlM
        (augBatch globalM st M) M with
    | error e =>
      rw [hfold] at h
      cases h
    | ok Mnew =>
      rw [hfold] at h
      injection h with h
      have hInv : Mnew.rows = M.rows ∧ Mnew.cols = M.cols ∧ keysNodup Mnew.entries
          ∧ keysInBounds Mnew
          ∧ ∃ pairs : List (ℕ × ℕ), (∀ p ∈ pairs, p.1 < M.rows ∧ p.2 < M.cols)
              ∧ ∀ i j, toDense Mnew i j
                  = if (i, j) ∈ pairs then max (toDense M i j) 1 else toDense M i j := by
        refine foldlM_ok_inv (augBatch globalM st M)
          (fun acc => acc.rows = M.rows ∧ acc.cols = M.cols ∧ keysNodup acc.entries
            ∧ keysInBounds acc
            ∧ ∃ pairs : List (ℕ × ℕ), (∀ p ∈ pairs, p.1 < M.rows ∧ p.2 < M.cols)
                ∧ ∀ i j, toDense acc i j
                    = if (i, j) ∈ pairs then max (toDense M i j) 1 else toDense M i j)
          ?_ _ M Mnew ?_ hfold
        · intro acc x res hP hf
          obtain ⟨h1, h2, h3, h4, pairs0, hp0, hchar⟩ := hP
          exact augBatch_inv globalM st M acc res x h1 h2 h3 h4 pairs0 hp0 hchar hf
        · refine ⟨rfl, rfl, hnd, hb, [], by simp, ?_⟩
          intro i j
          simp
      obtain ⟨hr, hc, hndN, hkbN, pairs, hpb, hcharN⟩ := hInv
      have hkbMerge : keysInBounds (mergePairs M pairs) :=
        keysInBounds_mergePairs M pairs hb hpb
      have hdr : ∀ i, rowDeg Mnew i = rowDeg (mergePairs M pairs) i := by
        intro i
        rw [rowDeg_eq_sum Mnew hkbN i, rowDeg_eq_sum (mergePairs M pairs) hkbMerge i]
        have hcolseq : Mnew.cols = (mergePairs M pairs).cols := hc
        rw [hcolseq]
        congr 1
        apply List.map_congr_left
        intro j _
        rw [hcharN i j, toDense_mergePairs M pairs hnd i j]
      have hdc : ∀ j, colDeg Mnew j = colDeg (mergePairs M pairs) j := by
        intro j
        rw [colDeg_eq_sum Mnew hkbN j, colDeg_eq_sum (mergePairs M pairs) hkbMerge j]
        have hrowseq : Mnew.rows = (mergePairs M pairs).rows := hr
        rw [hrowseq]
        congr 1
        apply List.map_congr_left
        intro i _
        rw [hcharN i j, toDense_mergePairs M pairs hnd i j]
      refine ⟨pairs, keysNodup_mergePairs M pairs,
        (fun i j => toDense_mergePairs M pairs hnd i j), ?_, ?_⟩
      · refine ⟨fun i => rowDeg Mnew i, fun j => colDeg Mnew j, ?_, hdr, hdc⟩
        rw [← h]
        rfl
      · refine ⟨reweight M (fun i => rowDeg Mnew i) (fun j => colDeg Mnew j) st.alpha st.beta,
          reweight M (fun i => rowDeg Mnew i) (fun j => colDeg Mnew j) st.gamma st.delta,
          by rw [← h]; rfl, by rw [← h]; rfl, ?_, ?_⟩
        · intro i j
          rw [toDense_reweight, hdr i, hdc j]
        · intro i j
          rw [toDense_reweight, hdr i, hdc j]

theorem augRound_spec_witness :
    ∃ st2 : LinkPropState,
      augRound exW1 (fit (st0 2 1) exW1) exW1 1 1 = Except.ok st2
      ∧ ∃ pairs : List (ℕ × ℕ),
          keysNodup (mergePairs exW1 pairs).entries
          ∧ (∀ i j, toDense (mergePairs exW1 pairs) i j
              = if (i, j) ∈ pairs then max (toDense exW1 i j) 1 else toDense exW1 i j)
          ∧ (∃ ud idg : ℕ → ℚ, st2.degrees = some (ud, idg)
              ∧ (∀ i, ud i = rowDeg (mergePairs exW1 pairs) i)
              ∧ (∀ j, idg j = colDeg (mergePairs exW1 pairs) j))
          ∧ (∃ P Q : Sp, st2.M_alpha_beta = some P ∧ st2.M_gamma_delta = some Q
              ∧ (∀ i j, toDense P i j
                  = negPow (rowDeg (mergePairs exW1 pairs) i) (fit (st0 2 1) exW1).alpha
                    * negPow (colDeg (mergePairs exW1 pairs) j) (fit (st0 2 1) exW1).beta
                    * toDense exW1 i j)
              ∧ (∀ i j, toDense Q i j
                  = negPow (rowDeg (mergePairs exW1 pairs) i) (fit (st0 2 1) exW1).gamma
                    * negPow (colDeg (mergePairs exW1 pairs) j) (fit (st0 2 1) exW1).delta
                    * toDense exW1 i j)) := by
  have hk : kForBatch exW1 0 1 (fit (st0 2 1) exW1).t = 1 := by
    have ht : (fit (st0 2 1) exW1).t = 1 := rfl
    rw [ht]
    unfold kForBatch exW1
    norm_num
  have hbatch : augBatch exW1 (fit (st0 2 1) exW1) exW1 exW1 (0, 1)
      = Except.ok (mergePairs exW1 (pairsFromPreds 0 [[]])) := by
    unfold augBatch
    rw [hk, predict_topk_exW1_empty 2 1]
  have haug : augRound exW1 (fit (st0 2 1) exW1) exW1 1 1
      = Except.ok (fit
          { (fit (st0 2 1) exW1) with
            degrees := some
              (fun i => rowDeg (mergePairs exW1 (pairsFromPreds 0 [[]])) i,
               fun j => colDeg (mergePairs exW1 (pairsFromPreds 0 [[]])) j) }
          exW1) := by
    unfold augRound
    rw [if_neg (by decide)]
    have hbatches : (batchStarts 1 1).map (fun s => (s, min (s + 1) 1)) = [(0, 1)] := rfl
    rw [hbatches, List.foldlM_cons, hbatch]
    rfl
  exact ⟨_, haug,
    augRound_spec exW1 (fit (st0 2 1) exW1) exW1 1 1 _ haug (by decide) (by decide)⟩

theorem keysL_map_value {κ : Type} [DecidableEq κ] (l : KList κ) (g : κ × ℚ → ℚ) :
    keysL (l.map (fun e => (e.1, g e))) = keysL l := by
  unfold keysL
  rw [List.map_map]
  rfl

theorem keysNodup_filter {κ : Type} [DecidableEq κ] (l : KList κ) (p : κ × ℚ → Bool)
    (hnd : keysNodup l) : keysNodup (l.filter p) :=
  List.Nodup.sublist (List.Sublist.map Prod.fst (List.filter_sublist l)) hnd

theorem mem_nodup_iff_dense {κ : Type} [DecidableEq κ] {l : KList κ}
    (hnd : keysNodup l) (k : κ) (v : ℚ) :
    (k, v) ∈ l ↔ k ∈ keysL l ∧ denseL l k = v := by
  constructor
  · intro h
    exact ⟨mem_keysL.mpr ⟨v, h⟩, denseL_of_mem_nodup hnd h⟩
  · rintro ⟨hk, hd⟩
    rcases mem_keysL.mp hk with ⟨w, hw⟩
    have := denseL_of_mem_nodup hnd hw
    rw [this] at hd
    rw [← hd]
    exact hw

theorem mem_keysL_cons {κ : Type} [DecidableEq κ] (e : κ × ℚ) (t : KList κ) (k : κ)
    (hk : e.1 ≠ k) : k ∈ keysL (e :: t) ↔ k ∈ keysL t := by
  simp only [keysL, List.map_cons, List.mem_cons]
  constructor
  · rintro (h1 | h1)
    · exact absurd h1.symm hk
    · exact h1
  · exact Or.inr

/-- Dense semantics of `sparse_re_assign_on_mask` over the raw appended
triplets: every stored coordinate in a masked row reads as `val`, all other
cells are untouched. -/
theorem denseL_re_assign (l : KList (ℕ × ℕ)) (mask : ℕ → Bool) (val : ℚ)
    (hnd : keysNodup l) (k : ℕ × ℕ) :
    denseL (l ++ (l.filter (fun e => mask e.1.1)).map (fun e => (e.1, val - e.2))) k
      = if mask k.1 = true ∧ k ∈ keysL l then val else denseL l k := by
  induction l with
  | nil => simp [denseL, valuesAt, keysL]
  | cons e t ih =>
    have hnd2 : (e.1 :: keysL t).Nodup := hnd
    have hknot : e.1 ∉ keysL t := (List.nodup_cons.mp hnd2).1
    have hndt : keysNodup t := (List.nodup_cons.mp hnd2).2
    have hsub : ∀ q : ℕ × ℕ, q ∈ keysL ((t.filter (fun x => mask x.1.1)).map
        (fun x => (x.1, val - x.2))) → q ∈ keysL t := by
      intro q hq
      rw [keysL_map_value] at hq
      exact List.Sublist.mem hq (List.Sublist.map Prod.fst (List.filter_sublist t))
    have hd0 : denseL ((t.filter (fun x => mask x.1.1)).map
        (fun x => (x.1, val - x.2))) e.1 = 0 := by
      apply denseL_eq_zero_of_not_mem
      intro hcmem
      exact hknot (hsub _ hcmem)
    have ht0 : denseL t e.1 = 0 := denseL_eq_zero_of_not_mem hknot
    have hih := ih hndt
    by_cases hm : mask e.1.1
    · rw [List.filter_cons_of_pos (by simpa using hm), List.map_cons,
        List.cons_append, denseL_cons]
      by_cases hk : e.1 = k
      · subst hk
        rw [if_pos rfl, denseL_append, denseL_cons, if_pos rfl]
        rw [ht0, hd0]
        rw [if_pos ⟨hm, by simp [keysL]⟩]
        ring
      · rw [if_neg hk, denseL_append, denseL_cons, if_neg hk]
        have hih2 := hih
        rw [denseL_append] at hih2
        have hkm := mem_keysL_cons e t k hk
        by_cases hc : mask k.1 = true ∧ k ∈ keysL t
        · rw [if_pos hc] at hih2
          rw [if_pos ⟨hc.1, hkm.mpr hc.2⟩]
          linarith
        · rw [if_neg hc] at hih2
          have hc2 : ¬(mask k.1 = true ∧ k ∈ keysL (e :: t)) := fun hcc =>
            hc ⟨hcc.1, hkm.mp hcc.2⟩
          rw [if_neg hc2, denseL_cons, if_neg hk]
          linarith
    · rw [List.filter_cons_of_neg (by simpa using hm), List.cons_append, denseL_cons]
      by_cases hk : e.1 = k
      · subst hk
        rw [if_pos rfl]
        have hih2 := hih
        rw [denseL_append] at hih2
        have hmk : ¬(mask e.1.1 = true ∧ e.1 ∈ keysL t) := fun hc => hm hc.1
        rw [if_neg hmk] at hih2
        have hmk2 : ¬(mask e.1.1 = true ∧ e.1 ∈ keysL (e :: t)) := fun hc => hm hc.1
        rw [if_neg hmk2, denseL_cons, if_pos rfl, denseL_append]
        linarith
      · rw [if_neg hk]
        have hih2 := hih
        have hkm := mem_keysL_cons e t k hk
        by_cases hc : mask k.1 = true ∧ k ∈ keysL t
        · rw [if_pos hc] at hih2
          rw [if_pos ⟨hc.1, hkm.mpr hc.2⟩, hih2]
          ring
        · rw [if_neg hc] at hih2
          have hc2 : ¬(mask k.1 = true ∧ k ∈ keysL (e :: t)) := fun hcc =>
            hc ⟨hcc.1, hkm.mp hcc.2⟩
          rw [if_neg hc2, denseL_cons, if_neg hk, hih2]

theorem keysL_applyRand (rand : ℕ → ℚ) (frac : ℚ) :
    ∀ (l : KList (ℕ × ℕ)) (n : ℕ), keysL (applyRand rand frac l n) = keysL l := by
  intro l
  induction l with
  | nil => intro n; rfl
  | cons e t ih =>
    intro n
    show (e.1, newVal frac (rand n) e.2).1 :: keysL (applyRand rand frac t (n + 1))
      = e.1 :: keysL t
    rw [ih (n + 1)]

theorem keysNodup_applyRand (rand : ℕ → ℚ) (frac : ℚ) (l : KList (ℕ × ℕ))
    (hnd : keysNodup l) (n : ℕ) : keysNodup (applyRand rand frac l n) := by
  unfold keysNodup
  rw [keysL_applyRand]
  exact hnd

theorem mem_applyRand (rand : ℕ → ℚ) (frac : ℚ) :
    ∀ (l : KList (ℕ × ℕ)) (n : ℕ) (e : (ℕ × ℕ) × ℚ), e ∈ applyRand rand frac l n →
      ∃ v m, (e.1, v) ∈ l ∧ e.2 = newVal frac (rand m) v := by
  intro l
  induction l with
  | nil => intro n e he; cases he
  | cons x t ih =>
    intro n e he
    rcases List.mem_cons.mp he with h1 | h2
    · subst h1
      exact ⟨x.2, n, List.mem_cons_self x t, rfl⟩
    · rcases ih (n + 1) e h2 with ⟨v, m, hv, he2⟩
      exact ⟨v, m, List.mem_cons_of_mem x hv, he2⟩

theorem mem_applyRand_of_mem (rand : ℕ → ℚ) (frac : ℚ) :
    ∀ (l : KList (ℕ × ℕ)) (n : ℕ) (k : ℕ × ℕ) (v : ℚ), (k, v) ∈ l →
      ∃ m, (k, newVal frac (rand m) v) ∈ applyRand rand frac l n := by
  intro l
  induction l with
  | nil => intro n k v h; cases h
  | cons x t ih =>
    intro n k v h
    rcases List.mem_cons.mp h with h1 | h2
    · refine ⟨n, ?_⟩
      show (k, newVal frac (rand n) v)
        ∈ (x.1, newVal frac (rand n) x.2) :: applyRand rand frac t (n + 1)
      rw [← h1]
      exact List.mem_cons_self _ _
    · rcases ih (n + 1) k v h2 with ⟨m, hm⟩
      exact ⟨m, List.mem_cons_of_mem _ hm⟩

theorem sampleData_entries (target : Sp) (rand : ℕ → ℚ) (fr : ℚ) (tr : KList (ℕ × ℕ))
    (hnd : keysNodup tr) :
    (sampleData target rand fr tr).entries = applyRand rand fr tr 0 := by
  show coalesceAdd (applyRand rand fr tr 0) = applyRand rand fr tr 0
  exact coalesceAdd_eq_self (keysNodup_applyRand rand fr tr hnd 0)

/-- Membership in the coalesced candidate matrix of `sample_user_items`:
stored coordinates are those of `target`, valued `2` in rows of degree
above one and unchanged elsewhere. -/
theorem cand_dense (target : Sp) (hnd : keysNodup target.entries) (k : ℕ × ℕ) (v : ℚ) :
    ((k, v) ∈ (sparse_re_assign_on_mask target
        (fun r => decide (1 < rowDeg target r)) 2).entries
      ↔ k ∈ keysL target.entries
        ∧ v = (if 1 < rowDeg target k.1 then (2 : ℚ) else toDense target k.1 k.2)) := by
  have hmem : ((k, v) ∈ (sparse_re_assign_on_mask target
      (fun r => decide (1 < rowDeg target r)) 2).entries
    ↔ k ∈ keysL (target.entries ++ (target.entries.filter
          (fun e => decide (1 < rowDeg target e.1.1))).map (fun e => (e.1, 2 - e.2)))
      ∧ v = denseL (target.entries ++ (target.entries.filter
          (fun e => decide (1 < rowDeg target e.1.1))).map (fun e => (e.1, 2 - e.2))) k) :=
    mem_coalesceBy_char List.sum _ k v
  have hdense : denseL (target.entries ++ (target.entries.filter
        (fun e => decide (1 < rowDeg target e.1.1))).map (fun e => (e.1, 2 - e.2))) k
      = if decide (1 < rowDeg target k.1) = true ∧ k ∈ keysL target.entries then 2
        else denseL target.entries k :=
    denseL_re_assign target.entries (fun r => decide (1 < rowDeg target r)) 2 hnd k
  have hkiff : (k ∈ keysL (target.entries ++ (target.entries.filter
      (fun e => decide (1 < rowDeg target e.1.1))).map (fun e => (e.1, 2 - e.2)))
      ↔ k ∈ keysL target.entries) := by
    rw [keysL_append, List.mem_append]
    constructor
    · rintro (h | h)
      · exact h
      · rw [keysL_map_value] at h
        exact List.Sublist.mem h (List.Sublist.map Prod.fst
          (List.filter_sublist target.entries))
    · exact Or.inl
  rw [hmem, hdense, hkiff]
  constructor
  · rintro ⟨hk, hv⟩
    refine ⟨hk, ?_⟩
    by_cases h1 : 1 < rowDeg target k.1
    · rw [if_pos h1]
      rw [if_pos ⟨by simpa using h1, hk⟩] at hv
      exact hv
    · rw [if_neg h1]
      rw [if_neg (fun hc => h1 (by simpa using hc.1))] at hv
      exact hv
  · rintro ⟨hk, hv⟩
    refine ⟨hk, ?_⟩
    by_cases h1 : 1 < rowDeg target k.1
    · rw [if_pos ⟨by simpa using h1, hk⟩]
      rw [if_pos h1] at hv
      exact hv
    · rw [if_neg (fun hc => h1 (by simpa using hc.1))]
      rw [if_neg h1] at hv
      exact hv

/-- Structural unfolding of `sample_user_items` on a coalesced target: the
observed entries are the random recoding of a nodup triplet list `tr`
(characterised entrywise), and the held-out entries are its value-swapped
image; both outputs keep the target's shape. -/
theorem sample_user_items_struct (target : Sp) ( ratio : ℚ) (rand : ℕ → ℚ)
    (hnd : keysNodup target.entries) :
    ∃ (fr : ℚ) (tr : KList (ℕ × ℕ)),
      keysNodup tr
      ∧ (∀ (k : ℕ × ℕ) (v : ℚ), ((k, v) ∈ tr ↔ k ∈ keysL target.entries
          ∧ v = (if 1 < rowDeg target k.1 then (2 : ℚ) else toDense target k.1 k.2)
          ∧ v ≠ 0))
      ∧ (sample_user_items target ratio rand).1.rows = target.rows
      ∧ (sample_user_items target ratio rand).1.cols = target.cols
      ∧ (sample_user_items target ratio rand).2.rows = target.rows
      ∧ (sample_user_items target ratio rand).2.cols = target.cols
      ∧ (sample_user_items target ratio rand).1.entries = applyRand rand fr tr 0
      ∧ (sample_user_items target ratio rand).2.entries
          = (applyRand rand fr tr 0).map (fun e => (e.1, heldVal e.2)) := by
  set mask : ℕ → Bool := fun r => decide (1 < rowDeg target r) with hmask
  set cand : Sp := sparse_re_assign_on_mask target mask 2 with hcand
  set tr : KList (ℕ × ℕ) := cand.entries.filter (fun e => decide (e.2 ≠ 0)) with htr
  set fr : ℚ := ((tr.filter (fun e => decide (e.2 = 2))).length : ℚ)
    / (tr.length : ℚ) * ratio with hfr
  have hndc : keysNodup cand.entries := by
    rw [hcand]
    exact keysNodup_coalesceBy _ _
  have hndtr : keysNodup tr := by
    rw [htr]
    exact keysNodup_filter _ _ hndc
  have hdent : (sample_user_items target ratio rand).1.entries = applyRand rand fr tr 0 :=
    sampleData_entries target rand fr tr hndtr
  have hhent : (sample_user_items target ratio rand).2.entries
      = (applyRand rand fr tr 0).map (fun e => (e.1, heldVal e.2)) := by
    have hmap : (sample_user_items target ratio rand).2.entries
        = coalesceAdd (((sample_user_items target ratio rand).1.entries).map
          (fun e => (e.1, heldVal e.2))) := rfl
    rw [hmap, hdent]
    apply coalesceAdd_eq_self
    unfold keysNodup
    rw [keysL_map_value, keysL_applyRand]
    exact hndtr
  have hch : ∀ (k : ℕ × ℕ) (v : ℚ), ((k, v) ∈ tr ↔ k ∈ keysL target.entries
      ∧ v = (if 1 < rowDeg target k.1 then (2 : ℚ) else toDense target k.1 k.2)
      ∧ v ≠ 0) := by
    intro k v
    rw [htr, hcand, hmask]
    simp only [List.mem_filter]
    rw [cand_dense target hnd k v]
    simp only [decide_eq_true_eq, and_assoc]
  exact ⟨fr, tr, hndtr, hch, rfl, rfl, rfl, rfl, hdent, hhent⟩

/-- C5: on a coalesced all-ones target, `sample_user_items(target, ratio)`
returns a pair of matrices of the target's shape; in every row of degree
above one, each cell's observed and held-out values have zero product
(positives disjoint) and sum to the target cell (their positives partition
the target's positives); every row of degree at most one reads unchanged in
the observed matrix and reads zero throughout the held-out matrix. -/
theorem sample_user_items_spec (target : Sp) ( ratio : ℚ) (rand : ℕ → ℚ)
    (hnd : keysNodup target.entries) (hones : ∀ e ∈ target.entries, e.2 = 1) :
    (sample_user_items target ratio rand).1.rows = target.rows
    ∧ (sample_user_items target ratio rand).1.cols = target.cols
    ∧ (sample_user_items target ratio rand).2.rows = target.rows
    ∧ (sample_user_items target ratio rand).2.cols = target.cols
    ∧ ∀ i j : ℕ,
        (1 < rowDeg target i →
          toDense (sample_user_items target ratio rand).1 i j
              * toDense (sample_user_items target ratio rand).2 i j = 0
          ∧ toDense (sample_user_items target ratio rand).1 i j
              + toDense (sample_user_items target ratio rand).2 i j
              = toDense target i j)
        ∧ (¬ 1 < rowDeg target i →
          toDense (sample_user_items target ratio rand).1 i j = toDense target i j
          ∧ toDense (sample_user_items target ratio rand).2 i j = 0) := by
  obtain ⟨fr, tr, hndtr, hchar, hr1, hc1, hr2, hc2, hdat, hhel⟩ :=
    sample_user_items_struct target ratio rand hnd
  refine ⟨hr1, hc1, hr2, hc2, ?_⟩
  intro i j
  have hnda : keysNodup (applyRand rand fr tr 0) := keysNodup_applyRand rand fr tr hndtr 0
  have hndh : keysNodup ((applyRand rand fr tr 0).map (fun e => (e.1, heldVal e.2))) := by
    unfold keysNodup
    rw [keysL_map_value]
    exact hnda
  have hobs : toDense (sample_user_items target ratio rand).1 i j
      = denseL (applyRand rand fr tr 0) (i, j) := by
    unfold toDense
    rw [hdat]
  have hhld : toDense (sample_user_items target ratio rand).2 i j
      = denseL ((applyRand rand fr tr 0).map (fun e => (e.1, heldVal e.2))) (i, j) := by
    unfold toDense
    rw [hhel]
  by_cases hk : (i, j) ∈ keysL tr
  · have hk2 : (i, j) ∈ keysL (applyRand rand fr tr 0) := by
      rw [keysL_applyRand]
      exact hk
    rcases mem_keysL.mp hk2 with ⟨w, hw⟩
    rcases mem_applyRand rand fr tr 0 ((i, j), w) hw with ⟨v, m, hv, hwv⟩
    have hv' : ((i, j), v) ∈ tr := hv
    have hwv' : w = newVal fr (rand m) v := hwv
    rcases (hchar (i, j) v).mp hv' with ⟨hkt, hveq, hvne⟩
    have hveq' : v = if 1 < rowDeg target i then (2 : ℚ) else toDense target i j := hveq
    rcases mem_keysL.mp hkt with ⟨u, hu⟩
    have hu1 : u = 1 := hones _ hu
    subst hu1
    have htd : toDense target i j = 1 := denseL_of_mem_nodup hnd hu
    have hobsw : toDense (sample_user_items target ratio rand).1 i j = w := by
      rw [hobs]
      exact denseL_of_mem_nodup hnda hw
    have hhldw : toDense (sample_user_items target ratio rand).2 i j = heldVal w := by
      rw [hhld]
      apply denseL_of_mem_nodup hndh
      exact List.mem_map.mpr ⟨((i, j), w), hw, rfl⟩
    constructor
    · intro hdeg
      have hv2 : v = 2 := by
        rw [hveq', if_pos hdeg]
      have hnv : newVal fr (rand m) 2 = 0 ∨ newVal fr (rand m) 2 = 1 := by
        unfold newVal
        rw [if_pos rfl]
        by_cases hrm : rand m < fr
        · exact Or.inl (if_pos hrm)
        · exact Or.inr (if_neg hrm)
      rw [hobsw, hhldw, htd, hwv', hv2]
      rcases hnv with h0 | h1
      · rw [h0]
        unfold heldVal
        norm_num
      · rw [h1]
        unfold heldVal
        norm_num
    · intro hdeg
      have hv1 : v = 1 := by
        rw [hveq', if_neg hdeg]
        exact htd
      have hw1 : w = 1 := by
        rw [hwv', hv1]
        unfold newVal
        norm_num
      constructor
      · rw [hobsw, hw1, htd]
      · rw [hhldw, hw1]
        unfold heldVal
        norm_num
  · have hk2 : (i, j) ∉ keysL (applyRand rand fr tr 0) := by
      rw [keysL_applyRand]
      exact hk
    have hobs0 : toDense (sample_user_items target ratio rand).1 i j = 0 := by
      rw [hobs]
      exact denseL_eq_zero_of_not_mem hk2
    have hkh : (i, j) ∉ keysL ((applyRand rand fr tr 0).map
        (fun e => (e.1, heldVal e.2))) := by
      rw [keysL_map_value]
      exact hk2
    have hhld0 : toDense (sample_user_items target ratio rand).2 i j = 0 := by
      rw [hhld]
      exact denseL_eq_zero_of_not_mem hkh
    have htd0 : toDense target i j = 0 := by
      by_cases hkt : (i, j) ∈ keysL target.entries
      · exfalso
        rcases mem_keysL.mp hkt with ⟨u, hu⟩
        have hu1 : u = 1 := hones _ hu
        subst hu1
        have htd1 : toDense target i j = 1 := denseL_of_mem_nodup hnd hu
        have hvv : (if 1 < rowDeg target i then (2 : ℚ) else toDense target i j) ≠ 0 := by
          by_cases hdeg : 1 < rowDeg target i
          · rw [if_pos hdeg]
            norm_num
          · rw [if_neg hdeg, htd1]
            norm_num
        have hmem : ((i, j), if 1 < rowDeg target i then (2 : ℚ)
            else toDense target i j) ∈ tr := by
          apply (hchar (i, j) _).mpr
          exact ⟨hkt, rfl, hvv⟩
        exact hk (mem_keysL.mpr ⟨_, hmem⟩)
      · exact denseL_eq_zero_of_not_mem hkt
    constructor
    · intro hdeg
      rw [hobs0, hhld0, htd0]
      norm_num
    · intro hdeg
      rw [hobs0, hhld0, htd0]
      exact ⟨rfl, rfl⟩

theorem sample_user_items_spec_witness :
    keysNodup exOnes2.entries
    ∧ (∀ e ∈ exOnes2.entries, e.2 = 1)
    ∧ ((sample_user_items exOnes2 (1/2) (fun _ => 0)).1.rows = exOnes2.rows
    ∧ (sample_user_items exOnes2 (1/2) (fun _ => 0)).1.cols = exOnes2.cols
    ∧ (sample_user_items exOnes2 (1/2) (fun _ => 0)).2.rows = exOnes2.rows
    ∧ (sample_user_items exOnes2 (1/2) (fun _ => 0)).2.cols = exOnes2.cols
    ∧ ∀ i j : ℕ,
        (1 < rowDeg exOnes2 i →
          toDense (sample_user_items exOnes2 (1/2) (fun _ => 0)).1 i j
              * toDense (sample_user_items exOnes2 (1/2) (fun _ => 0)).2 i j = 0
          ∧ toDense (sample_user_items exOnes2 (1/2) (fun _ => 0)).1 i j
              + toDense (sample_user_items exOnes2 (1/2) (fun _ => 0)).2 i j
              = toDense exOnes2 i j)
        ∧ (¬ 1 < rowDeg exOnes2 i →
          toDense (sample_user_items exOnes2 (1/2) (fun _ => 0)).1 i j
            = toDense exOnes2 i j
          ∧ toDense (sample_user_items exOnes2 (1/2) (fun _ => 0)).2 i j = 0)) := by
  have hones : ∀ e ∈ exOnes2.entries, e.2 = (1 : ℚ) := by
    intro e he
    rcases List.mem_cons.mp he with h | h
    · rw [h]
    · rw [List.mem_singleton] at h
      rw [h]
  exact ⟨by decide, hones,
    sample_user_items_spec exOnes2 (1/2) (fun _ => 0) (by decide) hones⟩

/-- Refutation of the unrestricted C5 reconstruction: on `[[1, 1, 0]]` the
explicitly stored zero at `(0, 2)` sits in a degree-2 row, is overwritten
with the sentinel `2`, and resurfaces with total observed-plus-held value 1,
so the union of the two outputs' positives gains a cell the target never
had positive. -/
theorem sample_user_items_creates_new_positive :
    1 < rowDeg exT5 0
    ∧ toDense exT5 0 2 = 0
    ∧ (toDense (sample_user_items exT5 (2/5) (fun _ => 9/10)).1 0 2
        + toDense (sample_user_items exT5 (2/5) (fun _ => 9/10)).2 0 2 = 1) := by
  have hdeg : rowDeg exT5 0 = 2 := by
    norm_num [rowDeg, exT5, List.filter_cons]
  have hdeg1 : (1 : ℚ) < rowDeg exT5 0 := by
    rw [hdeg]
    norm_num
  have htd0 : toDense exT5 0 2 = 0 := by
    simp only [toDense, exT5, denseL, valuesAt, List.filter_cons, List.filter_nil,
      decide_eq_true_eq]
    rw [if_neg (by decide), if_neg (by decide), if_pos (by decide)]
    simp
  obtain ⟨fr, tr, hndtr, hchar, hr1, hc1, hr2, hc2, hdat, hhel⟩ :=
    sample_user_items_struct exT5 (2/5) (fun _ => 9/10) (by decide)
  have hnda : keysNodup (applyRand (fun _ => 9/10) fr tr 0) :=
    keysNodup_applyRand _ fr tr hndtr 0
  have hndh : keysNodup ((applyRand (fun _ => 9/10) fr tr 0).map
      (fun e => (e.1, heldVal e.2))) := by
    unfold keysNodup
    rw [keysL_map_value]
    exact hnda
  have hmem : ((0, 2), (2 : ℚ)) ∈ tr := by
    apply (hchar (0, 2) 2).mpr
    refine ⟨by decide, ?_, by norm_num⟩
    rw [if_pos hdeg1]
  rcases mem_applyRand_of_mem (fun _ => 9/10) fr tr 0 (0, 2) 2 hmem with ⟨m, hm⟩
  have hobs : toDense (sample_user_items exT5 (2/5) (fun _ => 9/10)).1 0 2
      = newVal fr ((fun _ => (9 : ℚ)/10) m) 2 := by
    unfold toDense
    rw [hdat]
    exact denseL_of_mem_nodup hnda hm
  have hhld : toDense (sample_user_items exT5 (2/5) (fun _ => 9/10)).2 0 2
      = heldVal (newVal fr ((fun _ => (9 : ℚ)/10) m) 2) := by
    unfold toDense
    rw [hhel]
    apply denseL_of_mem_nodup hndh
    exact List.mem_map.mpr ⟨_, hm, rfl⟩
  refine ⟨hdeg1, htd0, ?_⟩
  rw [hobs, hhld]
  unfold newVal
  rw [if_pos rfl]
  by_cases hrm : ((fun _ => (9 : ℚ)/10) m) < fr
  · rw [if_pos hrm]
    unfold heldVal
    norm_num
  · rw [if_neg hrm]
    unfold heldVal
    norm_num

/-- C10: both outputs of `sample_user_items` share one stored-coordinate
pattern (the held-out keys equal the observed keys, and every stored
coordinate of a degree-above-one target row, stored zeros included, is
present); when the degree-at-most-one rows store only values in {0, 1, 2},
the observed matrix stores only 0 or 1, the held-out matrix stores an
explicit 1 at every held-out (observed-zero) coordinate and an explicit 0
at every kept (observed-nonzero) coordinate, so the positives of either
output are recovered only by filtering stored values, as `sparse_nonzero`
does, not from the stored-coordinate set. -/
theorem sample_user_items_stored_zeros (target : Sp) ( ratio : ℚ) (rand : ℕ → ℚ)
    (hnd : keysNodup target.entries)
    (hvals : ∀ e ∈ target.entries, ¬ 1 < rowDeg target e.1.1 →
      (e.2 = 0 ∨ e.2 = 1 ∨ e.2 = 2)) :
    keysL (sample_user_items target ratio rand).2.entries
      = keysL (sample_user_items target ratio rand).1.entries
    ∧ (∀ e ∈ (sample_user_items target ratio rand).1.entries, e.2 = 0 ∨ e.2 = 1)
    ∧ (∀ e ∈ (sample_user_items target ratio rand).1.entries,
        (e.2 = 0 → (e.1, (1 : ℚ)) ∈ (sample_user_items target ratio rand).2.entries)
        ∧ (e.2 ≠ 0 → (e.1, (0 : ℚ)) ∈ (sample_user_items target ratio rand).2.entries))
    ∧ (∀ k ∈ keysL target.entries, 1 < rowDeg target k.1 →
        k ∈ keysL (sample_user_items target ratio rand).1.entries) := by
  obtain ⟨fr, tr, hndtr, hchar, hr1, hc1, hr2, hc2, hdat, hhel⟩ :=
    sample_user_items_struct target ratio rand hnd
  have hval2 : ∀ e ∈ applyRand rand fr tr 0, e.2 = (0 : ℚ) ∨ e.2 = 1 := by
    intro e he
    rcases mem_applyRand rand fr tr 0 e he with ⟨v, m, hv, hwv⟩
    rcases (hchar e.1 v).mp hv with ⟨hkt, hveq, hvne⟩
    have hveq' : v = if 1 < rowDeg target e.1.1 then (2 : ℚ)
        else toDense target e.1.1 e.1.2 := hveq
    by_cases hdeg : 1 < rowDeg target e.1.1
    · have hv2 : v = 2 := by
        rw [hveq', if_pos hdeg]
      rw [hwv, hv2]
      unfold newVal
      rw [if_pos rfl]
      by_cases hrm : rand m < fr
      · exact Or.inl (if_pos hrm)
      · exact Or.inr (if_neg hrm)
    · rcases mem_keysL.mp hkt with ⟨u, hu⟩
      have hvu : v = u := by
        rw [hveq', if_neg hdeg]
        exact denseL_of_mem_nodup hnd hu
      have hu012 : u = 0 ∨ u = 1 ∨ u = 2 := hvals (e.1, u) hu hdeg
      rcases hu012 with h0 | h1 | h2
      · exact absurd (hvu.trans h0) hvne
      · rw [hwv, hvu, h1]
        unfold newVal
        norm_num
      · rw [hwv, hvu, h2]
        unfold newVal
        rw [if_pos rfl]
        by_cases hrm : rand m < fr
        · exact Or.inl (if_pos hrm)
        · exact Or.inr (if_neg hrm)
  refine ⟨?_, ?_, ?_, ?_⟩
  · rw [hhel, hdat, keysL_map_value]
  · intro e he
    rw [hdat] at he
    exact hval2 e he
  · intro e he
    rw [hdat] at he
    constructor
    · intro h0
      rw [hhel]
      refine List.mem_map.mpr ⟨e, he, ?_⟩
      show (e.1, heldVal e.2) = (e.1, (1 : ℚ))
      rw [h0]
      unfold heldVal
      norm_num
    · intro hne
      have h1 : e.2 = 1 := by
        rcases hval2 e he with h0 | h1
        · exact absurd h0 hne
        · exact h1
      rw [hhel]
      refine List.mem_map.mpr ⟨e, he, ?_⟩
      show (e.1, heldVal e.2) = (e.1, (0 : ℚ))
      rw [h1]
      unfold heldVal
      norm_num
  · intro k hkt hdeg
    have hmem : (k, (2 : ℚ)) ∈ tr := by
      apply (hchar k 2).mpr
      refine ⟨hkt, ?_, by norm_num⟩
      rw [if_pos hdeg]
    rcases mem_applyRand_of_mem rand fr tr 0 k 2 hmem with ⟨m, hm⟩
    rw [hdat]
    exact mem_keysL.mpr ⟨_, hm⟩

theorem sample_user_items_stored_zeros_witness :
    keysNodup exW1.entries
    ∧ (∀ e ∈ exW1.entries, ¬ 1 < rowDeg exW1 e.1.1 → (e.2 = 0 ∨ e.2 = 1 ∨ e.2 = 2))
    ∧ (keysL (sample_user_items exW1 0 (fun _ => 1)).2.entries
        = keysL (sample_user_items exW1 0 (fun _ => 1)).1.entries
    ∧ (∀ e ∈ (sample_user_items exW1 0 (fun _ => 1)).1.entries, e.2 = 0 ∨ e.2 = 1)
    ∧ (∀ e ∈ (sample_user_items exW1 0 (fun _ => 1)).1.entries,
        (e.2 = 0 → (e.1, (1 : ℚ)) ∈ (sample_user_items exW1 0 (fun _ => 1)).2.entries)
        ∧ (e.2 ≠ 0 → (e.1, (0 : ℚ)) ∈ (sample_user_items exW1 0 (fun _ => 1)).2.entries))
    ∧ (∀ k ∈ keysL exW1.entries, 1 < rowDeg exW1 k.1 →
        k ∈ keysL (sample_user_items exW1 0 (fun _ => 1)).1.entries)) := by
  have hvals : ∀ e ∈ exW1.entries, ¬ 1 < rowDeg exW1 e.1.1 →
      (e.2 = 0 ∨ e.2 = 1 ∨ e.2 = 2) := by
    intro e he h
    have he1 : e = ((0, 0), (1 : ℚ)) := by
      simpa [exW1] using he
    rw [he1]
    exact Or.inr (Or.inl rfl)
  exact ⟨by decide, hvals,
    sample_user_items_stored_zeros exW1 0 (fun _ => 1) (by decide) hvals⟩

/-- Refutation of the unrestricted C10 stored-zero pattern: the target
`[[1/2]]` has a row of degree 1/2, so its entry passes through the sampler
unchanged — the observed matrix keeps the stored value 1/2 at `(0, 0)` (a
kept, nonzero coordinate) while the held-out matrix stores 1/2 there too,
not the claimed explicit 0. -/
theorem sample_user_items_held_stores_nonzero_at_kept :
    toDense (sample_user_items exT10 1 (fun _ => 0)).1 0 0 = 1/2
    ∧ toDense (sample_user_items exT10 1 (fun _ => 0)).2 0 0 = 1/2 := by
  have hdeg : rowDeg exT10 0 = 1/2 := by
    norm_num [rowDeg, exT10, List.filter_cons]
  have hdegle : ¬ (1 : ℚ) < rowDeg exT10 0 := by
    rw [hdeg]
    norm_num
  have htd : toDense exT10 0 0 = 1/2 := by
    norm_num [toDense, exT10, denseL, valuesAt, List.filter_cons]
  obtain ⟨fr, tr, hndtr, hchar, hr1, hc1, hr2, hc2, hdat, hhel⟩ :=
    sample_user_items_struct exT10 1 (fun _ => 0) (by decide)
  have hnda : keysNodup (applyRand (fun _ => 0) fr tr 0) :=
    keysNodup_applyRand _ fr tr hndtr 0
  have hndh : keysNodup ((applyRand (fun _ => 0) fr tr 0).map
      (fun e => (e.1, heldVal e.2))) := by
    unfold keysNodup
    rw [keysL_map_value]
    exact hnda
  have hmem : ((0, 0), (1 : ℚ)/2) ∈ tr := by
    apply (hchar (0, 0) (1/2)).mpr
    refine ⟨by decide, ?_, by norm_num⟩
    rw [if_neg hdegle]
    exact htd.symm
  rcases mem_applyRand_of_mem (fun _ => 0) fr tr 0 (0, 0) (1/2) hmem with ⟨m, hm⟩
  have hnv : newVal fr ((fun _ => (0 : ℚ)) m) (1/2) = 1/2 := by
    unfold newVal
    norm_num
  have hobs : toDense (sample_user_items exT10 1 (fun _ => 0)).1 0 0
      = newVal fr ((fun _ => (0 : ℚ)) m) (1/2) := by
    unfold toDense
    rw [hdat]
    exact denseL_of_mem_nodup hnda hm
  have hhld : toDense (sample_user_items exT10 1 (fun _ => 0)).2 0 0
      = heldVal (newVal fr ((fun _ => (0 : ℚ)) m) (1/2)) := by
    unfold toDense
    rw [hhel]
    apply denseL_of_mem_nodup hndh
    exact List.mem_map.mpr ⟨_, hm, rfl⟩
  constructor
  · rw [hobs, hnv]
  · rw [hhld, hnv]
    unfold heldVal
    norm_num
